import Mathlib

/-!
Shallow embedding of the mm2 proof assistant core: separator trie, token
stream, Pratt-style parser, logical kernel (types, terms, rules, proofs),
tactic engine, elaborator and command driver, together with theorems about
them.  Partial functions of the source (weak-head normalization,
definitional equality, parsing, metavariable instantiation, the command
loop) are modelled with an explicit fuel parameter; `MRes.out` marks fuel
exhaustion and `MRes.err` a thrown error (the carried string is the thrown
error message).  Immutable string-keyed maps are modelled as association
lists whose `set` prepends and whose `get` takes the first binding, which
matches the observable get/set behaviour of the source maps.
-/

/-- Result of running an embedded, possibly throwing, possibly diverging
computation: a value, a thrown error message, or fuel exhaustion. -/
inductive MRes (α : Type) where
  | ok (a : α)
  | err (msg : String)
  | out
deriving DecidableEq

def MRes.bind {α β : Type} : MRes α → (α → MRes β) → MRes β
  | .ok a, f => f a
  | .err e, _ => .err e
  | .out, _ => .out

instance : Monad MRes where
  pure := MRes.ok
  bind := MRes.bind

/-- Simple types `Ty`: `base(name)` or `arrow(left, right)`. -/
inductive Ty where
  | base (name : String)
  | arrow (left : Ty) (right : Ty)
deriving DecidableEq

/-- Structural equality `Ty.eq` of the source. -/
def Ty.eq : Ty → Ty → Bool
  | .base a, .base b => a == b
  | .arrow l1 r1, .arrow l2 r2 => Ty.eq l1 l2 && Ty.eq r1 r2
  | _, _ => false

/-- Precedence-aware pretty printer `Ty.toString(ty, left)`. -/
def Ty.toString : Ty → Bool → String
  | .base n, _ => n
  | .arrow l r, left =>
    let s := Ty.toString l true ++ " -> " ++ Ty.toString r false
    if left then "(" ++ s ++ ")" else s

/-- Terms with separate bound (`bvar`), free (`fvar`) and metavariable
(`mvar`) indices, application, lambda and constants. -/
inductive Term where
  | bvar (idx : Nat)
  | fvar (idx : Nat)
  | mvar (name : String)
  | app (fn : Term) (arg : Term)
  | lam (name : String) (ty : Ty) (body : Term)
  | const (name : String)
deriving DecidableEq

/-- Metavariable context: assignment map, type map and fresh counter. -/
structure MCtx where
  assignment : List (String × Term)
  types : List (String × Ty)
  counter : Nat
deriving DecidableEq

def MCtx.default : MCtx := ⟨[], [], 0⟩

def MCtx.getAssignment (mctx : MCtx) (m : String) : Option Term :=
  mctx.assignment.lookup m

def MCtx.assign (mctx : MCtx) (m : String) (t : Term) : MCtx :=
  { mctx with assignment := (m, t) :: mctx.assignment }

def MCtx.mkFreshMVar (mctx : MCtx) (ty : Ty) : MCtx × Term :=
  let name := "_m" ++ toString mctx.counter
  ({ mctx with types := (name, ty) :: mctx.types, counter := mctx.counter + 1 },
   .mvar name)

/-- Rules (the proposition layer): `proves p`, `implies P Q`, `all name s P`. -/
inductive Rule where
  | proves (p : Term)
  | implies (P : Rule) (Q : Rule)
  | all (name : String) (s : Ty) (P : Rule)
deriving DecidableEq

/-- Proof terms: holes, axiom references, hypothesis references and the
introduction/elimination forms for implication and the universal. -/
inductive Proof where
  | hole (name : String)
  | ax (name : String)
  | hyp (idx : Nat)
  | impI (P : Rule) (hq : Proof)
  | impE (hpq : Proof) (hp : Proof)
  | allI (name : String) (s : Ty) (h : Proof)
  | allE (h : Proof) (t : Term)
deriving DecidableEq

/-- Pretty printer `Term.toString(t, fctx, bctx, prec)` of the source. -/
def Term.toString : Term → List (String × Ty) → List (String × Ty) → Nat → String
  | .bvar i, _, bctx, _ =>
    match bctx[i]? with
    | some e => e.1
    | none => "#" ++ ToString.toString i
  | .fvar i, fctx, _, _ =>
    match fctx[i]? with
    | some e => e.1
    | none => "?" ++ ToString.toString i
  | .mvar n, _, _, _ => "$" ++ n
  | .app fn arg, fctx, bctx, prec =>
    let s := Term.toString fn fctx bctx 1 ++ " " ++ Term.toString arg fctx bctx 2
    if prec > 1 then "(" ++ s ++ ")" else s
  | .lam n ty body, fctx, bctx, prec =>
    let s := "\\" ++ n ++ " : " ++ Ty.toString ty false ++ ", " ++
      Term.toString body fctx ((n, ty) :: bctx) 0
    if prec > 0 then "(" ++ s ++ ")" else s
  | .const n, _, _, _ => n

/-- Metavariable instantiation: replace assigned metavariables by their
definitions, following assignment chains (fuel bounds the chain length). -/
def Term.instM : Nat → MCtx → Term → MRes Term
  | 0, _, _ => .out
  | fuel+1, mctx, t =>
    match t with
    | .mvar n =>
      match MCtx.getAssignment mctx n with
      | some v => Term.instM fuel mctx v
      | none => .ok t
    | .app fn arg => do
      let f ← Term.instM fuel mctx fn
      let a ← Term.instM fuel mctx arg
      pure (.app f a)
    | .lam n ty body => do
      let b ← Term.instM fuel mctx body
      pure (.lam n ty b)
    | t => .ok t

/-- Occurs check: does metavariable `m` appear in `t` after following
assignments. -/
def Term.occursM : Nat → MCtx → Term → String → MRes Bool
  | 0, _, _, _ => .out
  | fuel+1, mctx, t, m =>
    match t with
    | .mvar n =>
      if n = m then .ok true
      else
        match MCtx.getAssignment mctx n with
        | some v => Term.occursM fuel mctx v m
        | none => .ok false
    | .app fn arg => do
      let b1 ← Term.occursM fuel mctx fn m
      if b1 then pure true else Term.occursM fuel mctx arg m
    | .lam _ _ body => Term.occursM fuel mctx body m
    | _ => .ok false

/-- Bound-variable lifting `liftB(t, n, k)`: adds `n` to every `bvar(i)` with
`i ≥ k`, threading `k+1` under each `lam`. -/
def Term.liftB : Term → Nat → Nat → Term
  | .bvar i, n, k => if i < k then .bvar i else .bvar (i + n)
  | .app fn arg, n, k => .app (Term.liftB fn n k) (Term.liftB arg n k)
  | .lam nm ty body, n, k => .lam nm ty (Term.liftB body n (k + 1))
  | t, _, _ => t

/-- Bound-variable substitution `substB(t, u, k)`: replaces `bvar(k)` by `u`
lifted under the surrounding binders, shifting greater indices down. -/
def Term.substB : Term → Term → Nat → Term
  | .bvar i, u, k =>
    if i = k then Term.liftB u k 0
    else if i > k then .bvar (i - 1)
    else .bvar i
  | .app fn arg, u, k => .app (Term.substB fn u k) (Term.substB arg u k)
  | .lam nm ty body, u, k => .lam nm ty (Term.substB body u (k + 1))
  | t, _, _ => t

/-- Free-variable lifting `liftF(t, n, k)` as implemented by the source; note
that the source increments the cutoff `k` under `lam`. -/
def Term.liftF : Term → Nat → Nat → Term
  | .fvar i, n, k => if i < k then .fvar i else .fvar (i + n)
  | .app fn arg, n, k => .app (Term.liftF fn n k) (Term.liftF arg n k)
  | .lam nm ty body, n, k => .lam nm ty (Term.liftF body n (k + 1))
  | t, _, _ => t

/-- Free-variable substitution `substF(t, u, k)` as implemented by the
source; the cutoff `k` is left unchanged under `lam`. -/
def Term.substF : Term → Term → Nat → Term
  | .fvar i, u, k =>
    if i = k then Term.liftF u k 0
    else if i > k then .fvar (i - 1)
    else .fvar i
  | .app fn arg, u, k => .app (Term.substF fn u k) (Term.substF arg u k)
  | .lam nm ty body, u, k => .lam nm ty (Term.substF body u k)
  | t, _, _ => t

/-- Type inference over the metavariable, constant, free and bound contexts;
errors are the thrown kernel messages. -/
def Term.inferType (mctx : MCtx) (cctx : List (String × Ty))
    (fctx : List (String × Ty)) (bctx : List (String × Ty)) :
    Term → MRes Ty
  | .bvar i =>
    match bctx[i]? with
    | some e => .ok e.2
    | none => .err ("invalid bvar: #" ++ ToString.toString i)
  | .fvar i =>
    match fctx[i]? with
    | some e => .ok e.2
    | none => .err ("invalid fvar: ?" ++ ToString.toString i)
  | .mvar n =>
    match mctx.types.lookup n with
    | some ty => .ok ty
    | none => .err ("invalid mvar: $" ++ n)
  | .app fn arg => do
    let fnTy ← Term.inferType mctx cctx fctx bctx fn
    match fnTy with
    | .arrow l r => do
      let argTy ← Term.inferType mctx cctx fctx bctx arg
      if Ty.eq l argTy then pure r else .err "type mismatch in application"
    | _ => .err "function type expected"
  | .lam n ty body => do
    let bodyTy ← Term.inferType mctx cctx fctx ((n, ty) :: bctx) body
    pure (.arrow ty bodyTy)
  | .const n =>
    match cctx.lookup n with
    | some ty => .ok ty
    | none => .err ("unknown const: " ++ n)

/-- Weak-head normal form: β-reduce head redexes and follow metavariable
assignments. -/
def Term.whnf : Nat → MCtx → Term → MRes Term
  | 0, _, _ => .out
  | fuel+1, mctx, t =>
    match t with
    | .app fn arg => do
      let f ← Term.whnf fuel mctx fn
      match f with
      | .lam _ _ body => Term.whnf fuel mctx (Term.substB body arg 0)
      | _ => pure (.app f arg)
    | .mvar n =>
      match MCtx.getAssignment mctx n with
      | some v => Term.whnf fuel mctx v
      | none => .ok t
    | t => .ok t

/-- Definitional equality of terms: whnf both sides, then compare
structurally, assigning one-sided metavariables after an occurs check. -/
def Term.isDefEq : Nat → MCtx → Term → Term → MRes (MCtx × Bool)
  | 0, _, _, _ => .out
  | fuel+1, mctx, t1, t2 =>
    match Term.whnf fuel mctx t1 with
    | .err e => .err e
    | .out => .out
    | .ok n1 =>
      match Term.whnf fuel mctx t2 with
      | .err e => .err e
      | .out => .out
      | .ok n2 =>
        match n1, n2 with
        | .bvar i, .bvar j => .ok (mctx, i == j)
        | .fvar i, .fvar j => .ok (mctx, i == j)
        | .const a, .const b => .ok (mctx, a == b)
        | .mvar a, .mvar b =>
          if a = b then .ok (mctx, true)
          else .ok (MCtx.assign mctx a (.mvar b), true)
        | .mvar a, n2 =>
          match Term.occursM fuel mctx n2 a with
          | .err e => .err e
          | .out => .out
          | .ok true => .ok (mctx, false)
          | .ok false => .ok (MCtx.assign mctx a n2, true)
        | n1, .mvar b =>
          match Term.occursM fuel mctx n1 b with
          | .err e => .err e
          | .out => .out
          | .ok true => .ok (mctx, false)
          | .ok false => .ok (MCtx.assign mctx b n1, true)
        | .lam _ ty1 b1, .lam _ ty2 b2 =>
          if Ty.eq ty1 ty2 then Term.isDefEq fuel mctx b1 b2
          else .ok (mctx, false)
        | .app f1 a1, .app f2 a2 =>
          match Term.isDefEq fuel mctx f1 f2 with
          | .err e => .err e
          | .out => .out
          | .ok (mctx1, de1) =>
            if de1 then
              match Term.isDefEq fuel mctx1 a1 a2 with
              | .err e => .err e
              | .out => .out
              | .ok (mctx2, de2) =>
                if de2 then .ok (mctx2, true) else .ok (mctx, false)
            else .ok (mctx, false)
        | _, _ => .ok (mctx, false)

/-- Pretty printer `Rule.toString(r, fctx, prec)` of the source. -/
def Rule.toString : Rule → List (String × Ty) → Nat → String
  | .proves p, fctx, _ => Term.toString p fctx [] 0
  | .implies P Q, fctx, prec =>
    let s := Rule.toString P fctx 2 ++ " => " ++ Rule.toString Q fctx 1
    if prec > 1 then "(" ++ s ++ ")" else s
  | .all n s P, fctx, prec =>
    let str := "!! " ++ n ++ " : " ++ Ty.toString s false ++ ", " ++
      Rule.toString P ((n, s) :: fctx) 0
    if prec > 0 then "(" ++ str ++ ")" else str

/-- Free-variable substitution on rules; the cutoff is incremented under
`all` and the substituted term is lifted by the current cutoff. -/
def Rule.substF : Rule → Term → Nat → Rule
  | .proves p, u, k => .proves (Term.substF p (Term.liftF u k 0) k)
  | .implies P Q, u, k => .implies (Rule.substF P u k) (Rule.substF Q u k)
  | .all n s P, u, k => .all n s (Rule.substF P u (k + 1))

/-- Metavariable instantiation mapped over a rule. -/
def Rule.instM (fuel : Nat) (mctx : MCtx) : Rule → MRes Rule
  | .proves p => do
    let t ← Term.instM fuel mctx p
    pure (.proves t)
  | .implies P Q => do
    let P1 ← Rule.instM fuel mctx P
    let Q1 ← Rule.instM fuel mctx Q
    pure (.implies P1 Q1)
  | .all n s P => do
    let P1 ← Rule.instM fuel mctx P
    pure (.all n s P1)

/-- Definitional equality of rules: same shape, componentwise def-eq with
the metavariable context threaded; failures return the original mctx. -/
def Rule.isDefEq (fuel : Nat) (mctx : MCtx) : Rule → Rule → MRes (MCtx × Bool)
  | .proves p1, .proves p2 =>
    match Term.isDefEq fuel mctx p1 p2 with
    | .err e => .err e
    | .out => .out
    | .ok (mctxn, de) =>
      if de then .ok (mctxn, true) else .ok (mctx, false)
  | .implies P1 Q1, .implies P2 Q2 =>
    match Rule.isDefEq fuel mctx P1 P2 with
    | .err e => .err e
    | .out => .out
    | .ok (mctx1, de1) =>
      if de1 then
        match Rule.isDefEq fuel mctx1 Q1 Q2 with
        | .err e => .err e
        | .out => .out
        | .ok (mctx2, de2) =>
          if de2 then .ok (mctx2, true) else .ok (mctx, false)
      else .ok (mctx, false)
  | .all _ s1 P1, .all _ s2 P2 =>
    if Ty.eq s1 s2 then Rule.isDefEq fuel mctx P1 P2
    else .ok (mctx, false)
  | _, _ => .ok (mctx, false)

/-- Well-formedness of a rule: every `proves` term has a base type; `all`
extends `fctx` at the head.  Inference errors propagate. -/
def Rule.isWF (mctx : MCtx) (cctx : List (String × Ty)) :
    List (String × Ty) → Rule → MRes Bool
  | fctx, .proves p => do
    let ty ← Term.inferType mctx cctx fctx [] p
    match ty with
    | .base _ => pure true
    | _ => pure false
  | fctx, .implies P Q => do
    let b1 ← Rule.isWF mctx cctx fctx P
    if b1 then Rule.isWF mctx cctx fctx Q else pure false
  | fctx, .all n s P => Rule.isWF mctx cctx ((n, s) :: fctx) P

/-- Proof checking: returns the rule a closed proof proves; holes are fatal;
`impI` extends `ctx` at the tail and `allI` extends `fctx` at the head. -/
def Proof.check (fuel : Nat) (mctx : MCtx) (cctx : List (String × Ty))
    (ax : List (String × Rule)) (ctx : List Rule) (fctx : List (String × Ty)) :
    Proof → MRes Rule
  | .hole _ => .err "proof has a hole"
  | .ax n =>
    match ax.lookup n with
    | some r => .ok r
    | none => .err ("invalid axiom: " ++ n)
  | .hyp i =>
    match ctx[i]? with
    | some r => .ok r
    | none => .err ("invalid hypothesis: #" ++ toString i)
  | .impI P hq =>
    match Proof.check fuel mctx cctx ax (ctx ++ [P]) fctx hq with
    | .err e => .err e
    | .out => .out
    | .ok Q => .ok (.implies P Q)
  | .impE hpq hp =>
    match Proof.check fuel mctx cctx ax ctx fctx hpq with
    | .err e => .err e
    | .out => .out
    | .ok imp =>
      match imp with
      | .implies P Q =>
        match Proof.check fuel mctx cctx ax ctx fctx hp with
        | .err e => .err e
        | .out => .out
        | .ok PImp =>
          match Rule.isDefEq fuel mctx P PImp with
          | .err e => .err e
          | .out => .out
          | .ok (_, de) =>
            if de then .ok Q
            else .err (Rule.toString P fctx 0 ++ " != " ++ Rule.toString PImp fctx 0)
      | _ => .err "implies expected at impE"
  | .allI n s h =>
    match Proof.check fuel mctx cctx ax ctx ((n, s) :: fctx) h with
    | .err e => .err e
    | .out => .out
    | .ok PAll => .ok (.all n s PAll)
  | .allE h t =>
    match Proof.check fuel mctx cctx ax ctx fctx h with
    | .err e => .err e
    | .out => .out
    | .ok allR =>
      match allR with
      | .all _ s P =>
        match Term.inferType mctx cctx fctx [] t with
        | .err e => .err e
        | .out => .out
        | .ok ty =>
          if Ty.eq s ty then .ok (Rule.substF P t 0)
          else .err "type mismatch at allE"
      | _ => .err "all expected at allE"

/-- Hole instantiation: recursively replace `hole(name)` by `proofs[name]`,
iterating until closed; fuel bounds the replacement chain. -/
def Proof.instHole : Nat → Proof → List (String × Proof) → MRes Proof
  | 0, _, _ => .out
  | fuel+1, p, proofs =>
    match p with
    | .hole n =>
      match proofs.lookup n with
      | some q => Proof.instHole fuel q proofs
      | none => .ok p
    | .impI P hq => do
      let q ← Proof.instHole fuel hq proofs
      pure (.impI P q)
    | .impE hpq hp => do
      let a ← Proof.instHole fuel hpq proofs
      let b ← Proof.instHole fuel hp proofs
      pure (.impE a b)
    | .allI n s h => do
      let a ← Proof.instHole fuel h proofs
      pure (.allI n s a)
    | .allE h t => do
      let a ← Proof.instHole fuel h proofs
      pure (.allE a t)
    | p => .ok p

/-- Separator trie node: an end-of-word mark and children keyed by single
characters, modelling the source trie map with its END sentinel key. -/
inductive Trie where
  | mk (endF : Bool) (children : Char → Option Trie)

def Trie.endF : Trie → Bool
  | .mk e _ => e

def Trie.children : Trie → Char → Option Trie
  | .mk _ ch => ch

def Trie.empty : Trie := .mk false (fun _ => none)

/-- Mark the path of `cs` in the trie, creating intermediate nodes. -/
def Trie.insertAux : Trie → List Char → Trie
  | .mk _ ch, [] => .mk true ch
  | .mk e ch, c :: cs =>
    let child := match ch c with
      | some t => t
      | none => Trie.empty
    .mk e (fun d => if d = c then some (Trie.insertAux child cs) else ch d)

/-- Insert a word; the empty word is a no-op. -/
def Trie.insert (t : Trie) (word : List Char) : Trie :=
  if word.isEmpty then t else Trie.insertAux t word

/-- Walk of `matchLongest`: follow the characters of the remaining text,
recording the last length at which an end-of-word mark was seen. -/
def Trie.matchLongestAux : Trie → List Char → Nat → Nat → Nat
  | _, [], _, maxMatch => maxMatch
  | node, c :: cs, currentLength, maxMatch =>
    match node.children c with
    | none => maxMatch
    | some next =>
      Trie.matchLongestAux next cs (currentLength + 1)
        (if next.endF then currentLength + 1 else maxMatch)

/-- Length of the longest inserted word that is a prefix of `text` at
`start`, or 0. -/
def Trie.matchLongest (t : Trie) (text : List Char) (start : Nat) : Nat :=
  Trie.matchLongestAux t (text.drop start) 0 0

/-- Exact-word membership test. -/
def Trie.has : Trie → List Char → Bool
  | t, [] => t.endF
  | t, c :: cs =>
    match t.children c with
    | some t2 => Trie.has t2 cs
    | none => false

/-- Trie obtained by inserting the given words in order into the empty trie. -/
def Trie.fromWords (ws : List (List Char)) : Trie :=
  ws.foldl Trie.insert Trie.empty

/-- Specification-side characterization: the length of the longest nonempty
marked path of the trie along `cs` (0 if none). -/
def Trie.best : Trie → List Char → Nat
  | _, [] => 0
  | t, c :: cs =>
    match t.children c with
    | none => 0
    | some next =>
      let b := Trie.best next cs
      if b = 0 then (if next.endF then 1 else 0) else b + 1

/-- Immutable cursor over the input text. -/
structure TokenStream where
  text : List Char
  index : Nat
deriving DecidableEq

/-- Code points of the JavaScript regular-expression whitespace class
outside the U+2000 to U+200A run: space, tab, line feed, carriage return,
vertical tab, form feed, no-break space, ogham space mark, line and
paragraph separators, narrow no-break space, medium mathematical space,
ideographic space and the byte-order mark. -/
def wsCodes : List Nat :=
  [32, 9, 10, 13, 11, 12, 0xa0, 0x1680, 0x2028, 0x2029, 0x202f, 0x205f,
   0x3000, 0xfeff]

/-- The JavaScript regular-expression whitespace class used by the source
tokenizer. -/
def isWspace (c : Char) : Bool :=
  wsCodes.contains c.toNat || (0x2000 ≤ c.toNat && c.toNat ≤ 0x200a)

/-- Loop of the whitespace skip: the list argument is the text suffix at
position `i`. -/
def skipWsAux : List Char → Nat → Nat
  | [], i => i
  | c :: cs, i => if isWspace c then skipWsAux cs (i + 1) else i

/-- Skip whitespace from position `i`. -/
def skipWs (text : List Char) (i : Nat) : Nat :=
  skipWsAux (text.drop i) i

/-- Loop of the string-literal scan: the list argument is the text suffix at
position `e`; a backslash unconditionally skips the next character. -/
def strEndAux : List Char → Nat → Nat
  | [], e => e
  | c :: cs, e =>
    if c = '"' then e + 1
    else if c = '\\' then
      match cs with
      | [] => e + 2
      | _ :: cs2 => strEndAux cs2 (e + 2)
    else strEndAux cs (e + 1)

/-- Scan a string literal body from position `e` (just after the opening
quote): the result is the position just after the closing quote, or past
the end if unclosed. -/
def strEnd (text : List Char) (e : Nat) : Nat :=
  strEndAux (text.drop e) e

/-- Loop of the digit-run scan. -/
def digitEndAux : List Char → Nat → Nat
  | [], e => e
  | c :: cs, e => if c.isDigit then digitEndAux cs (e + 1) else e

/-- Scan a maximal run of decimal digits from position `e`. -/
def digitEnd (text : List Char) (e : Nat) : Nat :=
  digitEndAux (text.drop e) e

/-- Loop of the identifier scan: the list argument is the text suffix at
position `e`; stop at whitespace or where the trie matches a separator. -/
def identEndAux (trie : Trie) (text : List Char) : List Char → Nat → Nat
  | [], e => e
  | c :: cs, e =>
    if isWspace c then e
    else if Trie.matchLongest trie text e > 0 then e
    else identEndAux trie text cs (e + 1)

/-- Scan an identifier: consume until whitespace or a position where the
trie matches a separator. -/
def identEnd (trie : Trie) (text : List Char) (e : Nat) : Nat :=
  identEndAux trie text (text.drop e) e

/-- Substring `[start, stop)` of the text as a string (clamped like the
source slice). -/
def sliceStr (text : List Char) (start stop : Nat) : String :=
  String.mk ((text.drop start).take (stop - start))

/-- Token scan at an already whitespace-skipped position: try a string
literal, a digit run, a trie separator (longest match) and finally an
identifier, in that order. -/
def readTokenAt (trie : Trie) (text : List Char) (start : Nat) :
    Option String × Nat :=
  if h : start < text.length then
    if text[start] = '"' then
      (some (sliceStr text start (strEnd text (start + 1))),
       strEnd text (start + 1))
    else if (text[start]).isDigit then
      (some (sliceStr text start (digitEnd text (start + 1))),
       digitEnd text (start + 1))
    else if Trie.matchLongest trie text start > 0 then
      (some (sliceStr text start (start + Trie.matchLongest trie text start)),
       start + Trie.matchLongest trie text start)
    else
      (some (sliceStr text start (identEnd trie text start)),
       identEnd trie text start)
  else (none, start)

/-- Read the next token and the next index: skip whitespace, then scan. -/
def TokenStream.readToken (trie : Trie) (s : TokenStream) :
    Option String × Nat :=
  readTokenAt trie s.text (skipWs s.text s.index)

def TokenStream.peek (trie : Trie) (s : TokenStream) : Option String :=
  (s.readToken trie).1

def TokenStream.next (trie : Trie) (s : TokenStream) : TokenStream :=
  ⟨s.text, (s.readToken trie).2⟩

/-- Surface syntax produced by the parser (the source Syntax type, renamed
to avoid the homonymous builtin). -/
inductive Stx where
  | ident (val : String)
  | atom (val : String)
  | str (val : String)
  | num (val : Nat)
  | node (type : String) (args : List Stx)

mutual

def Stx.decEq : (a b : Stx) → Decidable (a = b)
  | .ident a, .ident b =>
    match String.decEq a b with
    | isTrue h => isTrue (by rw [h])
    | isFalse h => isFalse fun hh => h (Stx.ident.inj hh)
  | .atom a, .atom b =>
    match String.decEq a b with
    | isTrue h => isTrue (by rw [h])
    | isFalse h => isFalse fun hh => h (Stx.atom.inj hh)
  | .str a, .str b =>
    match String.decEq a b with
    | isTrue h => isTrue (by rw [h])
    | isFalse h => isFalse fun hh => h (Stx.str.inj hh)
  | .num a, .num b =>
    match Nat.decEq a b with
    | isTrue h => isTrue (by rw [h])
    | isFalse h => isFalse fun hh => h (Stx.num.inj hh)
  | .node t1 a1, .node t2 a2 =>
    match String.decEq t1 t2, Stx.decEqList a1 a2 with
    | isTrue h1, isTrue h2 => isTrue (by rw [h1, h2])
    | isFalse h1, _ => isFalse fun hh => h1 (Stx.node.inj hh).1
    | _, isFalse h2 => isFalse fun hh => h2 (Stx.node.inj hh).2
  | .ident _, .atom _ => isFalse nofun
  | .ident _, .str _ => isFalse nofun
  | .ident _, .num _ => isFalse nofun
  | .ident _, .node _ _ => isFalse nofun
  | .atom _, .ident _ => isFalse nofun
  | .atom _, .str _ => isFalse nofun
  | .atom _, .num _ => isFalse nofun
  | .atom _, .node _ _ => isFalse nofun
  | .str _, .ident _ => isFalse nofun
  | .str _, .atom _ => isFalse nofun
  | .str _, .num _ => isFalse nofun
  | .str _, .node _ _ => isFalse nofun
  | .num _, .ident _ => isFalse nofun
  | .num _, .atom _ => isFalse nofun
  | .num _, .str _ => isFalse nofun
  | .num _, .node _ _ => isFalse nofun
  | .node _ _, .ident _ => isFalse nofun
  | .node _ _, .atom _ => isFalse nofun
  | .node _ _, .str _ => isFalse nofun
  | .node _ _, .num _ => isFalse nofun

def Stx.decEqList : (a b : List Stx) → Decidable (a = b)
  | [], [] => isTrue rfl
  | [], _ :: _ => isFalse nofun
  | _ :: _, [] => isFalse nofun
  | x :: xs, y :: ys =>
    match Stx.decEq x y, Stx.decEqList xs ys with
    | isTrue h1, isTrue h2 => isTrue (by rw [h1, h2])
    | isFalse h1, _ => isFalse fun hh => h1 (List.cons.inj hh).1
    | _, isFalse h2 => isFalse fun hh => h2 (List.cons.inj hh).2

end

instance : DecidableEq Stx := Stx.decEq

/-- Parser rule descriptors (the source ParserDescr type, renamed to avoid
the homonymous builtin). -/
inductive PDescr where
  | recurse (type : String) (prec : Nat)
  | ident
  | str
  | num
  | symbol (val : String)
  | many (rule : PDescr)
  | many1 (rule : PDescr)
deriving DecidableEq

structure Parser where
  prec : Nat
  descr : List PDescr
deriving DecidableEq

/-- Parser table indexed by nonterminal name, as a total lookup function
(observable behaviour of the source immutable map with default empty). -/
def Parsers : Type := String → List Parser

/-- Result of parsing one nonterminal. -/
inductive PRes where
  | ok (val : Stx) (rest : TokenStream)
  | fail (reason : String) (fatal : Bool)
deriving DecidableEq

/-- Result of parsing one rule body. -/
inductive RRes where
  | ok (args : List Stx) (rest : TokenStream)
  | fail (reason : String) (fatal : Bool)
deriving DecidableEq

/-- Does the first descriptor of a rule recurse into the rule's own
nonterminal (making the rule an infix/postfix rule)? -/
def firstIsRecurseSelf (descr : List PDescr) (targetType : String) : Bool :=
  match descr with
  | .recurse t _ :: _ => t == targetType
  | _ => false

/-- First infix rule with sufficient precedence whose second descriptor
matches the lookahead token: a symbol requires token equality, ident and
recurse are unconditional candidates; other kinds are skipped. -/
def findInfixRule (rules : List Parser) (minPrec : Nat) (tok : String) :
    Option Parser :=
  match rules with
  | [] => none
  | rule :: rest =>
    if rule.prec < minPrec then findInfixRule rest minPrec tok
    else
      match (rule.descr[1]? : Option PDescr) with
      | none => findInfixRule rest minPrec tok
      | some (.symbol v) =>
        if tok == v then some rule else findInfixRule rest minPrec tok
      | some .ident => some rule
      | some (.recurse _ _) => some rule
      | some _ => findInfixRule rest minPrec tok

/-- Hex digit value, used by the JSON string decoder. -/
def hexVal (c : Char) : Option Nat :=
  if c.isDigit then some (c.toNat - 48)
  else if 97 ≤ c.toNat ∧ c.toNat ≤ 102 then some (c.toNat - 87)
  else if 65 ≤ c.toNat ∧ c.toNat ≤ 70 then some (c.toNat - 55)
  else none

/-- Decode the body of a JSON string literal (everything after the opening
quote); the token must end exactly at the closing quote.  Models the
JSON.parse call of the source on string tokens; \u escapes yield one
character each (surrogate pairs are not recombined). -/
def jsonStrAux : List Char → List Char → Option (List Char)
  | acc, '"' :: rest => if rest = [] then some acc.reverse else none
  | acc, '\\' :: c :: rest =>
    match c with
    | '"' => jsonStrAux ('"' :: acc) rest
    | '\\' => jsonStrAux ('\\' :: acc) rest
    | '/' => jsonStrAux ('/' :: acc) rest
    | 'b' => jsonStrAux (Char.ofNat 8 :: acc) rest
    | 'f' => jsonStrAux (Char.ofNat 12 :: acc) rest
    | 'n' => jsonStrAux ('\n' :: acc) rest
    | 'r' => jsonStrAux ('\r' :: acc) rest
    | 't' => jsonStrAux ('\t' :: acc) rest
    | 'u' =>
      match rest with
      | h1 :: h2 :: h3 :: h4 :: rest2 =>
        match hexVal h1, hexVal h2, hexVal h3, hexVal h4 with
        | some a, some b, some c2, some d =>
          jsonStrAux (Char.ofNat (((a * 16 + b) * 16 + c2) * 16 + d) :: acc) rest2
        | _, _, _, _ => none
      | _ => none
    | _ => none
  | acc, c :: rest =>
    if c.toNat < 32 then none else jsonStrAux (c :: acc) rest
  | _, [] => none

/-- Models JSON.parse on a token expected to be a string literal. -/
def jsonParseString (tok : String) : Option String :=
  match tok.data with
  | '"' :: rest => (jsonStrAux [] rest).map fun cs => String.mk cs
  | _ => none

/-- Models parseInt on a token whose first character is a digit: the value
of the maximal leading digit run. -/
def parseIntLead (tok : String) : Nat :=
  (tok.data.takeWhile Char.isDigit).foldl (fun acc c => acc * 10 + (c.toNat - 48)) 0

mutual

/-- Pratt parse of one nonterminal at a minimum precedence: try the
non-left-recursive (prefix) rules in order, then repeatedly extend the
result with infix rules selected by single-token lookahead. -/
def parse (fuel : Nat) (stream : TokenStream) (targetType : String)
    (parsers : Parsers) (trie : Trie) (minPrec : Nat) : MRes PRes :=
  match fuel with
  | 0 => .out
  | fuel + 1 =>
    let allRules := parsers targetType
    if allRules.isEmpty then
      .ok (.fail ("no rules for type " ++ targetType) false)
    else
      let prefixRules := allRules.filter
        (fun rule => !firstIsRecurseSelf rule.descr targetType)
      match parsePrefixRules fuel stream targetType prefixRules parsers trie
          (PRes.fail "unexpected syntax" false) with
      | .err e => .err e
      | .out => .out
      | .ok (.fail r f) => .ok (.fail r f)
      | .ok (.ok left rest) =>
        parseInfixLoop fuel rest targetType allRules parsers trie minPrec left
termination_by structural fuel

/-- Prefix-rule loop of `parse`: try each rule at the same starting stream,
remembering the last error; a fatal failure propagates immediately. -/
def parsePrefixRules (fuel : Nat) (stream : TokenStream) (targetType : String)
    (rules : List Parser) (parsers : Parsers) (trie : Trie) (lastError : PRes) :
    MRes PRes :=
  match fuel with
  | 0 => .out
  | fuel + 1 =>
    match rules with
    | [] => .ok lastError
    | rule :: rest =>
      match parseRule fuel stream rule.descr parsers trie none with
      | .err e => .err e
      | .out => .out
      | .ok (.ok args rest2) => .ok (.ok (.node targetType args) rest2)
      | .ok (.fail r true) => .ok (.fail r true)
      | .ok (.fail r false) =>
        parsePrefixRules fuel stream targetType rest parsers trie (.fail r false)
termination_by structural fuel

/-- Infix loop of `parse`: while a token remains and an infix rule matches
the lookahead, parse the rule body with the current result injected. -/
def parseInfixLoop (fuel : Nat) (current : TokenStream) (targetType : String)
    (allRules : List Parser) (parsers : Parsers) (trie : Trie) (minPrec : Nat)
    (left : Stx) : MRes PRes :=
  match fuel with
  | 0 => .out
  | fuel + 1 =>
    match TokenStream.peek trie current with
    | none => .ok (.ok left current)
    | some tok =>
      let infixRules := allRules.filter
        (fun rule => firstIsRecurseSelf rule.descr targetType)
      match findInfixRule infixRules minPrec tok with
      | none => .ok (.ok left current)
      | some rule =>
        match parseRule fuel current rule.descr parsers trie (some left) with
        | .err e => .err e
        | .out => .out
        | .ok (.fail r true) => .ok (.fail r true)
        | .ok (.fail _ false) => .ok (.ok left current)
        | .ok (.ok args rest) =>
          parseInfixLoop fuel rest targetType allRules parsers trie minPrec
            (.node targetType args)
termination_by structural fuel

/-- Parse one rule body: walk the descriptors left to right, starting after
the injected left argument for infix rules. -/
def parseRule (fuel : Nat) (stream : TokenStream) (descr : List PDescr)
    (parsers : Parsers) (trie : Trie) (leftInfix : Option Stx) : MRes RRes :=
  match fuel with
  | 0 => .out
  | fuel + 1 =>
    match leftInfix with
    | some l => parseRuleLoop fuel stream (descr.drop 1) stream.index [l] parsers trie
    | none => parseRuleLoop fuel stream descr stream.index [] parsers trie
termination_by structural fuel

/-- Descriptor loop of `parseRule`: a sub-parse failure after the stream has
moved past the rule's starting index becomes fatal (committed choice). -/
def parseRuleLoop (fuel : Nat) (current : TokenStream) (descrs : List PDescr)
    (savedIndex : Nat) (args : List Stx) (parsers : Parsers) (trie : Trie) :
    MRes RRes :=
  match fuel with
  | 0 => .out
  | fuel + 1 =>
    match descrs with
    | [] => .ok (.ok args current)
    | d :: rest =>
      let isCommitted := current.index != savedIndex
      match parseArg fuel current d parsers trie with
      | .err e => .err e
      | .out => .out
      | .ok (.ok v rest2) =>
        parseRuleLoop fuel rest2 rest savedIndex (args ++ [v]) parsers trie
      | .ok (.fail r f) => .ok (.fail r (f || isCommitted))
termination_by structural fuel

/-- Parse a single descriptor. -/
def parseArg (fuel : Nat) (stream : TokenStream) (desc : PDescr)
    (parsers : Parsers) (trie : Trie) : MRes PRes :=
  match fuel with
  | 0 => .out
  | fuel + 1 =>
    match desc with
    | .symbol v =>
      match TokenStream.peek trie stream with
      | none => .ok (.fail ("unexpected EOF, expected " ++ v) false)
      | some token =>
        if token = v then .ok (.ok (.atom token) (TokenStream.next trie stream))
        else .ok (.fail ("expected " ++ v ++ ", got " ++ token) false)
    | .ident =>
      match TokenStream.peek trie stream with
      | none => .ok (.fail "unexpected EOF, expected identifier" false)
      | some token =>
        if Trie.has trie token.data then
          .ok (.fail ("expected identifier, got symbol " ++ token) false)
        else .ok (.ok (.ident token) (TokenStream.next trie stream))
    | .str =>
      match TokenStream.peek trie stream with
      | none => .ok (.fail "unexpected EOF, expected string" false)
      | some token =>
        if token.startsWith "\"" then
          match jsonParseString token with
          | some val => .ok (.ok (.str val) (TokenStream.next trie stream))
          | none => .ok (.fail ("invalid string literal: " ++ token) true)
        else .ok (.fail ("expected string literal, got " ++ token) false)
    | .num =>
      match TokenStream.peek trie stream with
      | none => .ok (.fail "unexpected EOF, expected string" false)
      | some token =>
        match token.data.head? with
        | some c =>
          if c.isDigit then
            .ok (.ok (.num (parseIntLead token)) (TokenStream.next trie stream))
          else .ok (.fail ("expected natural literal, got " ++ token) false)
        | none => .ok (.fail ("expected natural literal, got " ++ token) false)
    | .recurse type prec => parse fuel stream type parsers trie prec
    | .many rule => manyLoop fuel stream rule [] parsers trie
    | .many1 rule =>
      match parseArg fuel stream rule parsers trie with
      | .err e => .err e
      | .out => .out
      | .ok (.fail r f) => .ok (.fail r f)
      | .ok (.ok v rest) => manyLoop fuel rest rule [v] parsers trie
termination_by structural fuel

/-- Zero-or-more loop shared by `many` and the continuation of `many1`: a
non-fatal failure ends the loop, a fatal one propagates. -/
def manyLoop (fuel : Nat) (curr : TokenStream) (rule : PDescr)
    (items : List Stx) (parsers : Parsers) (trie : Trie) : MRes PRes :=
  match fuel with
  | 0 => .out
  | fuel + 1 =>
    match parseArg fuel curr rule parsers trie with
    | .err e => .err e
    | .out => .out
    | .ok (.ok v rest) => manyLoop fuel rest rule (items ++ [v]) parsers trie
    | .ok (.fail r f) =>
      if f then .ok (.fail r f)
      else .ok (.ok (.node "many" items) curr)
termination_by structural fuel

end

/-- Goal: hole id, target rule, hypothesis context (name, rule, optional
deferred proof) and free-variable context. -/
structure Goal where
  holeId : String
  target : Rule
  ctx : List (String × Rule × Option Proof)
  fctx : List (String × Ty)
deriving DecidableEq

/-- Tactic-engine state: open goals, solved-hole proofs, axioms, constant
types and the metavariable context. -/
structure TacticState where
  goals : List Goal
  proofs : List (String × Proof)
  axioms : List (String × Rule)
  cctx : List (String × Ty)
  mctx : MCtx
deriving DecidableEq

def Tactic.getGoal (ts : TacticState) : MRes Goal :=
  match ts.goals with
  | [] => .err "no goals to solve"
  | g :: _ => .ok g

def Tactic.instMCtxEntry (fuel : Nat) (mctx : MCtx) :
    (String × Rule × Option Proof) → MRes (String × Rule × Option Proof)
  | (n, r, p) =>
    match Rule.instM fuel mctx r with
    | .err e => .err e
    | .out => .out
    | .ok r2 => .ok (n, r2, p)

def Tactic.instMCtxList (fuel : Nat) (mctx : MCtx) :
    List (String × Rule × Option Proof) →
    MRes (List (String × Rule × Option Proof))
  | [] => .ok []
  | e :: rest =>
    match Tactic.instMCtxEntry fuel mctx e with
    | .err e2 => .err e2
    | .out => .out
    | .ok e2 =>
      match Tactic.instMCtxList fuel mctx rest with
      | .err e3 => .err e3
      | .out => .out
      | .ok rest2 => .ok (e2 :: rest2)

def Tactic.instMGoal (fuel : Nat) (mctx : MCtx) (g : Goal) : MRes Goal :=
  match Rule.instM fuel mctx g.target with
  | .err e => .err e
  | .out => .out
  | .ok t =>
    match Tactic.instMCtxList fuel mctx g.ctx with
    | .err e => .err e
    | .out => .out
    | .ok c => .ok { g with target := t, ctx := c }

def Tactic.instMGoals (fuel : Nat) (mctx : MCtx) : List Goal → MRes (List Goal)
  | [] => .ok []
  | g :: rest =>
    match Tactic.instMGoal fuel mctx g with
    | .err e => .err e
    | .out => .out
    | .ok g2 =>
      match Tactic.instMGoals fuel mctx rest with
      | .err e => .err e
      | .out => .out
      | .ok rest2 => .ok (g2 :: rest2)

/-- Drop the head goal, prepend the new goals, and re-instantiate
metavariables in every goal's target and hypothesis context. -/
def Tactic.replaceGoal (fuel : Nat) (ts : TacticState) (newGoals : List Goal) :
    MRes TacticState :=
  match ts.goals with
  | [] => .err "no goals to solve"
  | _ :: tail =>
    match Tactic.instMGoals fuel ts.mctx (newGoals ++ tail) with
    | .err e => .err e
    | .out => .out
    | .ok goals => .ok { ts with goals := goals }

def Tactic.assignProof (ts : TacticState) (holeId : String) (p : Proof) :
    TacticState :=
  { ts with proofs := (holeId, p) :: ts.proofs }

/-- Mint a fresh hole from the shared mctx counter together with its goal;
the goal is not enqueued here. -/
def Tactic.mkHole (ts : TacticState) (target : Rule)
    (ctx : List (String × Rule × Option Proof)) (fctx : List (String × Ty)) :
    TacticState × Proof × Goal :=
  let name := "_hole_" ++ toString ts.mctx.counter
  let newGoal : Goal := ⟨name, target, ctx, fctx⟩
  ({ ts with mctx := { ts.mctx with counter := ts.mctx.counter + 1 } },
   .hole name, newGoal)

/-- Scan of `assumption` over the hypothesis context from the head. -/
def Tactic.assumptionLoop (fuel : Nat) (ts : TacticState) (g : Goal)
    (i : Nat) (entries : List (String × Rule × Option Proof)) :
    MRes TacticState :=
  match entries with
  | [] => .err "assumption failed"
  | (_, rule, p) :: rest =>
    match Rule.isDefEq fuel ts.mctx rule g.target with
    | .err e => .err e
    | .out => .out
    | .ok (mctx, de) =>
      if de then
        let ts1 := { ts with mctx := mctx }
        let ts2 := Tactic.assignProof ts1 g.holeId (p.getD (.hyp i))
        Tactic.replaceGoal fuel ts2 []
      else Tactic.assumptionLoop fuel ts g (i + 1) rest

def Tactic.assumption (fuel : Nat) (ts : TacticState) : MRes TacticState :=
  match Tactic.getGoal ts with
  | .err e => .err e
  | .out => .out
  | .ok g => Tactic.assumptionLoop fuel ts g 0 g.ctx

/-- intro: on an `implies` target extend `ctx` with the antecedent and open
a hole for the consequent; on an `all` target extend `fctx` at the head. -/
def Tactic.intro (fuel : Nat) (ts : TacticState) (name : String) :
    MRes TacticState :=
  match Tactic.getGoal ts with
  | .err e => .err e
  | .out => .out
  | .ok g =>
    match g.target with
    | .implies P Q =>
      let (ts1, qHole, g1) := Tactic.mkHole ts Q (g.ctx ++ [(name, P, none)]) g.fctx
      let ts2 := Tactic.assignProof ts1 g.holeId (.impI P qHole)
      Tactic.replaceGoal fuel ts2 [g1]
    | .all _ s P =>
      let (ts3, pHole, g2) := Tactic.mkHole ts P g.ctx ((name, s) :: g.fctx)
      let ts4 := Tactic.assignProof ts3 g.holeId (.allI name s pHole)
      Tactic.replaceGoal fuel ts4 [g2]
    | _ => .err "intro failed"

/-- Index-and-rule search in a hypothesis context (the source findIndex
followed by access). -/
def ctxFind : List (String × Rule × Option Proof) → String → Nat →
    Option (Nat × Rule)
  | [], _, _ => none
  | (n, r, _) :: rest, name, i =>
    if n = name then some (i, r) else ctxFind rest name (i + 1)

/-- Index-and-type search in a free-variable context. -/
def fctxFind : List (String × Ty) → String → Nat → Option (Nat × Ty)
  | [], _, _ => none
  | (n, t) :: rest, name, i =>
    if n = name then some (i, t) else fctxFind rest name (i + 1)

mutual

/-- Walk of the apply arguments: a string argument eliminates an `implies`
against a named hypothesis or instantiates an `all` with a free variable or
constant; a term argument instantiates an `all` after type checking. -/
def Tactic.applyArgs (fuel : Nat) (ts : TacticState) (p : Proof) (r : Rule)
    (args : List (String ⊕ Term)) : MRes TacticState :=
  match fuel with
  | 0 => .out
  | fuel + 1 =>
    match Tactic.getGoal ts with
    | .err e => .err e
    | .out => .out
    | .ok g =>
      match args with
      | (Sum.inl t) :: nextArgs =>
        match r with
        | .implies P Q =>
          match ctxFind g.ctx t 0 with
          | none => .err ("unknown identifier: " ++ t)
          | some (idx, hypRule) =>
            match Rule.isDefEq fuel ts.mctx P hypRule with
            | .err e => .err e
            | .out => .out
            | .ok (mctx1, de) =>
              if de then
                Tactic.applyArgs fuel { ts with mctx := mctx1 }
                  (.impE p (.hyp idx)) Q nextArgs
              else
                .err (Rule.toString P g.fctx 0 ++ " is not definitionally equal to "
                  ++ Rule.toString hypRule g.fctx 0)
        | .all _ s P =>
          match fctxFind g.fctx t 0 with
          | some (idx2, _) =>
            Tactic.applyArgs fuel ts (.allE p (.fvar idx2))
              (Rule.substF P (.fvar idx2) 0) nextArgs
          | none =>
            match ts.cctx.lookup t with
            | some c =>
              if Ty.eq c s then
                Tactic.applyArgs fuel ts (.allE p (.const t))
                  (Rule.substF P (.const t) 0) nextArgs
              else
                .err ("type mismatch: " ++ t ++ " has type " ++ Ty.toString c false
                  ++ " but expected to have type " ++ Ty.toString s false)
            | none => .err ("unknown identifier: " ++ t)
        | _ => .err "apply failed: excess arguments"
      | (Sum.inr t) :: nextArgs =>
        match r with
        | .all _ s P =>
          match Term.inferType ts.mctx ts.cctx g.fctx [] t with
          | .err e => .err e
          | .out => .out
          | .ok ty =>
            if Ty.eq ty s then
              Tactic.applyArgs fuel ts (.allE p t) (Rule.substF P t 0) nextArgs
            else
              .err ("type mismatch: " ++ Term.toString t g.fctx [] 0 ++ " has type "
                ++ Ty.toString ty false ++ " but expected to have type "
                ++ Ty.toString s false)
        | _ => .err "apply failed: not applicable"
      | [] => Tactic.applyCore fuel ts p r []
termination_by structural fuel

/-- Close the goal if the rule is def-equal to the target; otherwise open a
hole for an `implies` antecedent or a fresh metavariable for an `all`. -/
def Tactic.applyCore (fuel : Nat) (ts : TacticState) (p : Proof) (r : Rule)
    (goals : List Goal) : MRes TacticState :=
  match fuel with
  | 0 => .out
  | fuel + 1 =>
    match Tactic.getGoal ts with
    | .err e => .err e
    | .out => .out
    | .ok g =>
      match Rule.isDefEq fuel ts.mctx r g.target with
      | .err e => .err e
      | .out => .out
      | .ok (mctx1, de) =>
        if de then
          let ts1 := Tactic.assignProof { ts with mctx := mctx1 } g.holeId p
          Tactic.replaceGoal fuel ts1 goals
        else
          match r with
          | .implies P Q =>
            let (ts1, pHole, newGoal) := Tactic.mkHole ts P g.ctx g.fctx
            Tactic.applyCore fuel ts1 (.impE p pHole) Q (goals ++ [newGoal])
          | .all _ s P =>
            let (mctx2, mv) := MCtx.mkFreshMVar ts.mctx s
            Tactic.applyCore fuel { ts with mctx := mctx2 } (.allE p mv)
              (Rule.substF P mv 0) goals
          | _ =>
            .err (Rule.toString r g.fctx 0 ++ " is not definitionally equal to "
              ++ Rule.toString g.target g.fctx 0)
termination_by structural fuel

end

/-- apply: resolve the name to a hypothesis (as `hyp idx`, ignoring any
stored deferred proof) or an axiom, then walk the arguments. -/
def Tactic.apply (fuel : Nat) (ts : TacticState) (name : String)
    (args : List (String ⊕ Term)) : MRes TacticState :=
  match Tactic.getGoal ts with
  | .err e => .err e
  | .out => .out
  | .ok g =>
    match ctxFind g.ctx name 0 with
    | some (idx, r) => Tactic.applyArgs fuel ts (.hyp idx) r args
    | none =>
      match ts.axioms.lookup name with
      | some rule => Tactic.applyArgs fuel ts (.ax name) rule args
      | none => .err ("unknown identifier: " ++ name)

/-- have: open a lemma goal for `r` and re-add the current goal with `ctx`
extended at the tail by the named hypothesis carrying the deferred hole. -/
def Tactic.haveT (fuel : Nat) (ts : TacticState) (name : String) (r : Rule) :
    MRes TacticState :=
  match Tactic.getGoal ts with
  | .err e => .err e
  | .out => .out
  | .ok g =>
    let (ts1, hole, lemmaGoal) := Tactic.mkHole ts r g.ctx g.fctx
    let newGoal : Goal := { g with ctx := g.ctx ++ [(name, r, some hole)] }
    Tactic.replaceGoal fuel ts1 [lemmaGoal, newGoal]

/-- Notation slot descriptors: a literal atom or a typed term slot. -/
inductive NotationDescr where
  | atom (val : String)
  | term (ty : Ty) (prec : Nat)
deriving DecidableEq

/-- A registered notation: declared constant name and slot descriptors in
source order (the source Notation record, renamed). -/
structure NotationR where
  name : String
  descr : List NotationDescr
deriving DecidableEq

/-- Elaborate a type syntax node. -/
def elabTy : Nat → Stx → MRes Ty
  | 0, _ => .out
  | fuel + 1, stx =>
    match stx with
    | .node "ty" args =>
      match (args[0]? : Option Stx), (args[1]? : Option Stx), (args[2]? : Option Stx) with
      | some (.ident v), _, _ => .ok (.base v)
      | some (.node "ty" a0), some (.atom "->"), some (.node "ty" a2) => do
        let l ← elabTy fuel (.node "ty" a0)
        let r ← elabTy fuel (.node "ty" a2)
        pure (.arrow l r)
      | some (.atom "("), some (.node "ty" a1), some (.atom ")") =>
        elabTy fuel (.node "ty" a1)
      | _, _, _ => .err "unexpected syntax"
    | _ => .err "unreachable"

mutual

/-- Elaborate a term syntax node: bound variables, free variables and
constants by lookup, application, lambda, parentheses, then user notations
in registration order. -/
def elabTerm (fuel : Nat) (stx : Stx) (bdepth fdepth : Nat)
    (bvMap fvMap : List (String × Nat)) (notations : List NotationR) :
    MRes Term :=
  match fuel with
  | 0 => .out
  | fuel + 1 =>
    match stx with
    | .node "term" args =>
      match (args[0]? : Option Stx), (args[1]? : Option Stx), (args[2]? : Option Stx), (args[3]? : Option Stx), (args[4]? : Option Stx), (args[5]? : Option Stx) with
      | some (.ident v), _, _, _, _, _ =>
        match bvMap.lookup v with
        | some i => .ok (.bvar (bdepth - (i + 1)))
        | none =>
          match fvMap.lookup v with
          | some j => .ok (.fvar (fdepth - (j + 1)))
          | none => .ok (.const v)
      | some (.node "term" a0), some (.node "term" a1), _, _, _, _ => do
        let ta ← elabTerm fuel (.node "term" a0) bdepth fdepth bvMap fvMap notations
        let tb ← elabTerm fuel (.node "term" a1) bdepth fdepth bvMap fvMap notations
        pure (.app ta tb)
      | some (.atom "\\"), some (.ident x), some (.atom ":"),
          some (.node "ty" a3), some (.atom ","), some (.node "term" a5) => do
        let t ← elabTerm fuel (.node "term" a5) (bdepth + 1) fdepth
          ((x, bdepth) :: bvMap) fvMap notations
        let ty ← elabTy fuel (.node "ty" a3)
        pure (.lam x ty t)
      | some (.atom "("), some (.node "term" a1), some (.atom ")"), _, _, _ =>
        elabTerm fuel (.node "term" a1) bdepth fdepth bvMap fvMap notations
      | _, _, _, _, _, _ =>
        elabTermNotations fuel args bdepth fdepth bvMap fvMap notations notations
    | _ => .err "unreachable"
termination_by structural fuel

/-- Try each notation in order: a notation matches when arities agree,
atoms align with atom slots and every term slot elaborates. -/
def elabTermNotations (fuel : Nat) (args : List Stx) (bdepth fdepth : Nat)
    (bvMap fvMap : List (String × Nat)) (remaining : List NotationR)
    (notations : List NotationR) : MRes Term :=
  match fuel with
  | 0 => .out
  | fuel + 1 =>
    match remaining with
    | [] => .err "not implemented"
    | nt :: rest =>
      if nt.descr.length = args.length then
        match elabNotationMatch fuel nt.descr args (.const nt.name) bdepth fdepth
            bvMap fvMap notations with
        | .err e => .err e
        | .out => .out
        | .ok (some res) => .ok res
        | .ok none =>
          elabTermNotations fuel args bdepth fdepth bvMap fvMap rest notations
      else elabTermNotations fuel args bdepth fdepth bvMap fvMap rest notations
termination_by structural fuel

/-- Match one notation against the child syntaxes, building the
left-associated application of the notation constant to the elaborated term
slots in source order; `none` signals a shape mismatch. -/
def elabNotationMatch (fuel : Nat) (descr : List NotationDescr)
    (args : List Stx) (res : Term) (bdepth fdepth : Nat)
    (bvMap fvMap : List (String × Nat)) (notations : List NotationR) :
    MRes (Option Term) :=
  match fuel with
  | 0 => .out
  | fuel + 1 =>
    match descr, args with
    | [], _ => .ok (some res)
    | .atom _ :: ds, .atom _ :: rest =>
      elabNotationMatch fuel ds rest res bdepth fdepth bvMap fvMap notations
    | .atom _ :: _, _ => .ok none
    | .term _ _ :: ds, .node "term" a :: rest =>
      match elabTerm fuel (.node "term" a) bdepth fdepth bvMap fvMap notations with
      | .err e => .err e
      | .out => .out
      | .ok t =>
        elabNotationMatch fuel ds rest (.app res t) bdepth fdepth bvMap fvMap
          notations
    | .term _ _ :: _, _ => .ok none
termination_by structural fuel

end

/-- Identifier values of a list of syntaxes (used for `!!` binder lists). -/
def identVals : List Stx → MRes (List String)
  | [] => .ok []
  | .ident v :: rest => do
    let vs ← identVals rest
    pure (v :: vs)
  | _ :: _ => .err "unexpected syntax"

/-- Elaborate a rule syntax node. -/
def elabRule : Nat → Stx → Nat → List (String × Nat) → List NotationR → MRes Rule
  | 0, _, _, _, _ => .out
  | fuel + 1, stx, fdepth, fvMap, notations =>
    match stx with
    | .node "rule" args =>
      match (args[0]? : Option Stx), (args[1]? : Option Stx), (args[2]? : Option Stx), (args[3]? : Option Stx), (args[4]? : Option Stx), (args[5]? : Option Stx) with
      | some (.node "term" a0), _, _, _, _, _ => do
        let p ← elabTerm fuel (.node "term" a0) 0 fdepth [] fvMap notations
        pure (.proves p)
      | some (.atom "!!"), some (.node "many" a1), some (.atom ":"),
          some (.node "ty" a3), some (.atom ","), some (.node "rule" a5) => do
        let xs ← identVals a1
        let nextMap := xs.enum.foldl (fun m p => (p.2, fdepth + p.1) :: m) fvMap
        let s ← elabTy fuel (.node "ty" a3)
        let r ← elabRule fuel (.node "rule" a5) (fdepth + a1.length) nextMap notations
        pure (xs.foldr (fun nm acc => .all nm s acc) r)
      | some (.node "rule" a0), some (.atom "=>"), some (.node "rule" a2), _, _, _ => do
        let r1 ← elabRule fuel (.node "rule" a0) fdepth fvMap notations
        let r2 ← elabRule fuel (.node "rule" a2) fdepth fvMap notations
        pure (.implies r1 r2)
      | some (.atom "("), some (.node "rule" a1), some (.atom ")"), _, _, _ =>
        elabRule fuel (.node "rule" a1) fdepth fvMap notations
      | _, _, _, _, _, _ => .err "unexpected syntax"
    | _ => .err "unreachable"

/-- Accumulating walk of the notation declaration slots: atoms extend the
keyword and symbol lists, term slots extend the descriptors and wrap the
accumulated constant type as `arrow(slotTy, acc)`. -/
def elabNotationAux : Nat → List Stx → List NotationDescr → List PDescr →
    List String → Ty → MRes (List NotationDescr × List PDescr × List String × Ty)
  | _, [], nd, pd, kw, ty => .ok (nd, pd, kw, ty)
  | fuel, stx :: rest, nd, pd, kw, ty =>
    match stx with
    | .node "notation" args =>
      match (args[0]? : Option Stx), (args[1]? : Option Stx), (args[2]? : Option Stx) with
      | some (.str v), _, _ =>
        elabNotationAux fuel rest (nd ++ [.atom v]) (pd ++ [.symbol v])
          (kw ++ [v]) ty
      | some (.node "ty" a0), some (.atom ":"), some (.num k) =>
        match elabTy fuel (.node "ty" a0) with
        | .err e => .err e
        | .out => .out
        | .ok t =>
          elabNotationAux fuel rest (nd ++ [.term t k]) (pd ++ [.recurse "term" k])
            kw (.arrow t ty)
      | _, _, _ => .err "unexpected syntax"
    | _ => .err "unreachable"

/-- Elaborate a notation declaration into the notation record, the new
parser rule, the new separator keywords and the declared constant type. -/
def elabNotationR (fuel : Nat) (stxs : List Stx) (name : String) (prec : Nat)
    (base : Ty) : MRes (NotationR × Parser × List String × Ty) :=
  match elabNotationAux fuel stxs [] [] [] base with
  | .err e => .err e
  | .out => .out
  | .ok (nd, pd, kw, ty) => .ok (⟨name, nd⟩, ⟨prec, pd⟩, kw, ty)

/-- Free-variable name map derived from a goal's `fctx` (reversed, so that
elaboration converts levels back to head-first indices). -/
def fvMapOf (fctx : List (String × Ty)) : List (String × Nat) :=
  fctx.reverse.enum.foldl (fun m p => (p.2.1, p.1) :: m) []

/-- Elaborate the apply arguments: identifiers stay strings, term nodes are
elaborated at bound depth 0 with the goal's free-variable map. -/
def elabApplyArgs (fuel : Nat) : List Stx → Nat → List (String × Nat) →
    List NotationR → MRes (List (String ⊕ Term))
  | [], _, _, _ => .ok []
  | v :: rest, flen, fvMap, notations =>
    match v with
    | .ident s => do
      let xs ← elabApplyArgs fuel rest flen fvMap notations
      pure (Sum.inl s :: xs)
    | .node "term" a => do
      let t ← elabTerm fuel (.node "term" a) 0 flen [] fvMap notations
      let xs ← elabApplyArgs fuel rest flen fvMap notations
      pure (Sum.inr t :: xs)
    | _ => .err "unexpected syntax"

/-- Run the intro tactic over each identifier of an `intro` tactic node. -/
def elabIntroLoop (fuel : Nat) : TacticState → List Stx → MRes TacticState
  | ts, [] => .ok ts
  | ts, s :: rest =>
    match s with
    | .ident v =>
      match Tactic.intro fuel ts v with
      | .err e => .err e
      | .out => .out
      | .ok ts1 => elabIntroLoop fuel ts1 rest
    | _ => .err "unexpected syntax"

/-- Dispatch a tactic syntax node to the tactic engine. -/
def elabTactic (fuel : Nat) (ts : TacticState) (stx : Stx)
    (notations : List NotationR) : MRes TacticState :=
  match fuel with
  | 0 => .out
  | fuel + 1 =>
    match stx with
    | .node "tactic" args =>
      match (args[0]? : Option Stx), (args[1]? : Option Stx), (args[2]? : Option Stx), (args[3]? : Option Stx) with
      | some (.atom "assum"), _, _, _ => Tactic.assumption fuel ts
      | some (.atom "intro"), some (.node "many" a1), _, _ =>
        elabIntroLoop fuel ts a1
      | some (.atom "apply"), some (.ident name), some (.node "many" a2), _ =>
        match Tactic.getGoal ts with
        | .err e => .err e
        | .out => .out
        | .ok g =>
          match elabApplyArgs fuel a2 g.fctx.length (fvMapOf g.fctx) notations with
          | .err e => .err e
          | .out => .out
          | .ok xs => Tactic.apply fuel ts name xs
      | some (.atom "have"), some (.ident name), some (.atom ":"),
          some (.node "rule" a3) =>
        match Tactic.getGoal ts with
        | .err e => .err e
        | .out => .out
        | .ok g =>
          match elabRule fuel (.node "rule" a3) g.fctx.length (fvMapOf g.fctx)
              notations with
          | .err e => .err e
          | .out => .out
          | .ok r => Tactic.haveT fuel ts name r
      | _, _, _, _ => .err "unexpected syntax"
    | _ => .err "unreachable"

/-- Run a list of tactic syntax nodes in order. -/
def elabTacticLoop (fuel : Nat) : TacticState → List Stx → List NotationR →
    MRes TacticState
  | ts, [], _ => .ok ts
  | ts, tac :: rest, notations =>
    match elabTactic fuel ts tac notations with
    | .err e => .err e
    | .out => .out
    | .ok ts1 => elabTacticLoop fuel ts1 rest notations

/-- Global state threaded by the command driver. -/
structure CoreState where
  parsers : Parsers
  trie : Trie
  notations : List NotationR
  constants : List (String × Ty)
  axioms : List (String × Rule)

/-- Report text for unsolved goals at the end of a prove command. -/
def goalMsg (g : Goal) : String :=
  "case " ++ g.holeId ++ "\n\nVariables:\n" ++
  g.fctx.foldr (fun r l => l ++ "\t" ++ r.1 ++ " : " ++ Ty.toString r.2 false ++ "\n")
    "" ++
  "\nHypothesis:\n" ++
  g.ctx.foldl (fun l r => l ++ "\t" ++ r.1 ++ " : " ++ Rule.toString r.2.1 g.fctx 0
    ++ "\n") "" ++
  "\nGoal: " ++ Rule.toString g.target g.fctx 0

def unsolvedGoalsMsg (goals : List Goal) : String :=
  goals.foldl (fun s g => s ++ goalMsg g) "unsolved goals\n"

/-- Stable sort of the term parser rules by descending precedence (the
source sortBy with key minus prec). -/
def sortByPrecDesc (ps : List Parser) : List Parser :=
  ps.mergeSort (fun a b => decide (b.prec ≤ a.prec))

/-- Elaborate one command syntax node into an updated core state. -/
def elabCommand (fuel : Nat) (cs : CoreState) (stx : Stx) : MRes CoreState :=
  match fuel with
  | 0 => .out
  | fuel + 1 =>
    match stx with
    | .node "command" args =>
      match (args[0]? : Option Stx), (args[1]? : Option Stx), (args[2]? : Option Stx), (args[3]? : Option Stx), (args[4]? : Option Stx), (args[5]? : Option Stx),
          (args[6]? : Option Stx), (args[7]? : Option Stx) with
      | some (.atom "notation"), some (.atom ":"), some (.num prec),
          some (.node "many" descrs), some (.atom ":"), some (.node "ty" tyStx),
          some (.atom ":="), some (.ident name) =>
        if (cs.constants.lookup name).isSome then
          .err ("constant " ++ name ++ " is already declared")
        else
          match elabTy fuel (.node "ty" tyStx) with
          | .err e => .err e
          | .out => .out
          | .ok baseTy =>
            match elabNotationR fuel descrs name prec baseTy with
            | .err e => .err e
            | .out => .out
            | .ok (nt, parser, keywords, ty) =>
              let ps := cs.parsers "term"
              .ok { cs with
                notations := cs.notations ++ [nt],
                parsers := fun s =>
                  if s = "term" then sortByPrecDesc (ps ++ [parser])
                  else cs.parsers s,
                trie := keywords.foldl (fun l r => Trie.insert l r.data) cs.trie,
                constants := (name, ty) :: cs.constants }
      | some (.atom "axiom"), some (.ident name), some (.atom ":"),
          some (.node "rule" rstx), _, _, _, _ =>
        if (cs.axioms.lookup name).isSome then
          .err (name ++ " is already declared")
        else
          match elabRule fuel (.node "rule" rstx) 0 [] cs.notations with
          | .err e => .err e
          | .out => .out
          | .ok r =>
            match Rule.isWF MCtx.default cs.constants [] r with
            | .err e => .err e
            | .out => .out
            | .ok wf =>
              if wf then .ok { cs with axioms := (name, r) :: cs.axioms }
              else .err ("rule " ++ name ++ " is not well-formed")
      | some (.atom "prove"), some (.ident name), some (.atom ":"),
          some (.node "rule" rstx), some (.atom "by"), some (.node "many" tacs),
          _, _ =>
        if (cs.axioms.lookup name).isSome then
          .err (name ++ " is already declared")
        else
          match elabRule fuel (.node "rule" rstx) 0 [] cs.notations with
          | .err e => .err e
          | .out => .out
          | .ok r =>
            match Rule.isWF MCtx.default cs.constants [] r with
            | .err e => .err e
            | .out => .out
            | .ok wf =>
              if wf then
                let ts1 : TacticState := ⟨[], [], cs.axioms, cs.constants,
                  MCtx.default⟩
                let hg := Tactic.mkHole ts1 r [] []
                let ts0 := { hg.1 with goals := [hg.2.2] }
                match elabTacticLoop fuel ts0 tacs cs.notations with
                | .err e => .err e
                | .out => .out
                | .ok ts3 =>
                  if ts3.goals.isEmpty then
                    .ok { cs with axioms := (name, r) :: cs.axioms }
                  else .err (unsolvedGoalsMsg ts3.goals)
              else .err ("rule " ++ name ++ " is not well-formed")
      | _, _, _, _, _, _, _, _ => .err "unexpected syntax"
    | _ => .err "unreachable"

/-- The built-in grammar of the source. -/
def defaultParsers : Parsers := fun s =>
  if s = "command" then
    [⟨1024, [.symbol "notation", .symbol ":", .num,
       .many1 (.recurse "notation" 0), .symbol ":", .recurse "ty" 0,
       .symbol ":=", .ident]⟩,
     ⟨1024, [.symbol "axiom", .ident, .symbol ":", .recurse "rule" 0]⟩,
     ⟨1024, [.symbol "prove", .ident, .symbol ":", .recurse "rule" 0,
       .symbol "by", .many (.recurse "tactic" 0)]⟩]
  else if s = "notation" then
    [⟨1024, [.str]⟩,
     ⟨1024, [.recurse "ty" 0, .symbol ":", .num]⟩]
  else if s = "applyArg" then
    [⟨1024, [.ident]⟩,
     ⟨1024, [.recurse "term" 61]⟩]
  else if s = "tactic" then
    [⟨1024, [.symbol "assum"]⟩,
     ⟨1024, [.symbol "intro", .many1 .ident]⟩,
     ⟨1024, [.symbol "apply", .ident, .many (.recurse "applyArg" 0)]⟩,
     ⟨1024, [.symbol "have", .ident, .symbol ":", .recurse "rule" 0]⟩]
  else if s = "rule" then
    [⟨1024, [.symbol "(", .recurse "rule" 0, .symbol ")"]⟩,
     ⟨1024, [.recurse "term" 0]⟩,
     ⟨1024, [.symbol "!!", .many1 .ident, .symbol ":", .recurse "ty" 0,
       .symbol ",", .recurse "rule" 0]⟩,
     ⟨30, [.recurse "rule" 31, .symbol "=>", .recurse "rule" 30]⟩]
  else if s = "term" then
    [⟨1024, [.symbol "(", .recurse "term" 0, .symbol ")"]⟩,
     ⟨1024, [.ident]⟩,
     ⟨1024, [.symbol "\\", .ident, .symbol ":", .recurse "ty" 0, .symbol ",",
       .recurse "term" 0]⟩,
     ⟨0, [.recurse "term" 0, .recurse "term" 1]⟩]
  else if s = "ty" then
    [⟨1024, [.symbol "(", .recurse "ty" 0, .symbol ")"]⟩,
     ⟨1024, [.ident]⟩,
     ⟨30, [.recurse "ty" 31, .symbol "->", .recurse "ty" 30]⟩]
  else []

/-- The built-in separator set of the source. -/
def defaultTrie : Trie :=
  (((((((((((((((((Trie.empty.insert "(".data).insert ")".data).insert
    "->".data).insert "\\".data).insert ":".data).insert ",".data).insert
    "!!".data).insert "=>".data).insert ":=".data).insert
    "assum".data).insert "intro".data).insert "apply".data).insert
    "have".data).insert "notation".data).insert "axiom".data).insert
    "prove".data).insert "by".data)

def defaultCoreState : CoreState :=
  ⟨defaultParsers, defaultTrie, [], [], []⟩

/-- Truthiness of the optional peeked token (the empty string is falsy in
the source driver condition). -/
def tokenTruthy : Option String → Bool
  | some t => t != ""
  | none => false

/-- The command driver loop: parse a command; on success elaborate it
(returning a caught error message if it throws) and continue; on parse
failure report the reason when the failure is fatal or a token remains,
otherwise finish cleanly. -/
def processFrom (fuel : Nat) (st : TokenStream) (state : CoreState) :
    MRes String :=
  match fuel with
  | 0 => .out
  | fuel + 1 =>
    match parse fuel st "command" state.parsers state.trie 0 with
    | .err e => .err e
    | .out => .out
    | .ok (.fail reason fatal) =>
      if fatal || tokenTruthy (TokenStream.peek state.trie st) then .ok reason
      else .ok "all good"
    | .ok (.ok val rest) =>
      match elabCommand fuel state val with
      | .err e => .ok e
      | .out => .out
      | .ok state2 => processFrom fuel rest state2

/-- The driver entry point: process a whole script from the default state. -/
def processText (fuel : Nat) (text : String) : MRes String :=
  processFrom fuel ⟨text.data, 0⟩ defaultCoreState

/-- Example proposition `p` over the single constant `p`. -/
def pRule : Rule := .proves (.const "p")

/-- The example goal `p => p => p`. -/
def pppRule : Rule := .implies pRule (.implies pRule pRule)

/-- Initial tactic state for proving `pppRule` with constant `p : o`,
mirroring the setup of the prove command: a single root goal with empty
hypothesis and free-variable contexts whose hole is `_hole_0`. -/
def demoInit : TacticState :=
  let ts1 : TacticState := ⟨[], [], [], [("p", .base "o")], MCtx.default⟩
  let hg := Tactic.mkHole ts1 pppRule [] []
  { hg.1 with goals := [hg.2.2] }

/-- The tactic script intro h1; intro h2; have h3 : p; apply h1; apply h3
run on `demoInit`. -/
def c1Run : MRes TacticState :=
  MRes.bind (Tactic.intro 50 demoInit "h1") (fun ts =>
  MRes.bind (Tactic.intro 50 ts "h2") (fun ts =>
  MRes.bind (Tactic.haveT 50 ts "h3" pRule) (fun ts =>
  MRes.bind (Tactic.apply 50 ts "h1" []) (fun ts =>
  Tactic.apply 50 ts "h3" []))))

/-- The open goals after the script. -/
def c1Goals : MRes (List Goal) :=
  MRes.bind c1Run (fun ts => .ok ts.goals)

/-- The root proof after hole instantiation with the accumulated proofs. -/
def c1InstProof : MRes Proof :=
  MRes.bind c1Run (fun ts => Proof.instHole 50 (.hole "_hole_0") ts.proofs)

/-- Checking the instantiated root proof under the final state. -/
def c1Checked : MRes Rule :=
  MRes.bind c1Run (fun ts =>
    MRes.bind (Proof.instHole 50 (.hole "_hole_0") ts.proofs) (fun p =>
      Proof.check 50 ts.mctx ts.cctx ts.axioms [] [] p))

/-- Two intro steps on the example goal. -/
def c2Run : MRes TacticState :=
  MRes.bind (Tactic.intro 50 demoInit "h1") (fun ts => Tactic.intro 50 ts "h2")

/-- Hypothesis names of the head goal after the two intro steps. -/
def c2CtxNames : MRes (List String) :=
  MRes.bind c2Run (fun ts =>
    match ts.goals with
    | g :: _ => .ok (g.ctx.map (fun e => e.1))
    | [] => .err "no goals")

/-- The state after the first intro step (used to witness the intro shape
theorems). -/
def c2Step1 : TacticState :=
  match Tactic.intro 50 demoInit "h1" with
  | .ok ts => ts
  | _ => demoInit

/-- An example universally quantified goal `!! x : T, x`. -/
def allRule : Rule := .all "x" (.base "T") (.proves (.fvar 0))

/-- Initial tactic state for the goal `allRule`. -/
def demoInitAll : TacticState :=
  let ts1 : TacticState := ⟨[], [], [], [], MCtx.default⟩
  let hg := Tactic.mkHole ts1 allRule [] []
  { hg.1 with goals := [hg.2.2] }

/-- The state after intro on the universally quantified example goal. -/
def cAllStep : TacticState :=
  match Tactic.intro 50 demoInitAll "x" with
  | .ok ts => ts
  | _ => demoInitAll

/-- The state after a have step on the example goal. -/
def cHaveStep : TacticState :=
  match Tactic.haveT 50 demoInit "h" pRule with
  | .ok ts => ts
  | _ => demoInit

/-- A tiny grammar with one committed two-symbol rule and an ident rule,
used to exercise the parser's failure discipline. -/
def gram1 : Parsers := fun s =>
  if s = "X" then [⟨10, [.symbol "x", .symbol "z"]⟩, ⟨5, [.ident]⟩] else []

/-- The separators of the tiny grammar. -/
def trie1 : Trie := (Trie.empty.insert "x".data).insert "z".data

/-- A tiny grammar with two single-symbol prefix rules. -/
def gram2 : Parsers := fun s =>
  if s = "X" then [⟨10, [.symbol "z"]⟩, ⟨5, [.symbol "x"]⟩] else []

/-- Term-slot types of a notation descriptor list, in source order. -/
def slotTys (nd : List NotationDescr) : List Ty :=
  nd.filterMap (fun d =>
    match d with
    | .term t _ => some t
    | _ => none)

/-- Modelled from the spec words of the claim: the declared constant type
curries the slots in source order with baseTy as the final result type,
arrow(tau1, arrow(tau2, ..., baseTy)). -/
def specNotationConstTy (slots : List Ty) (base : Ty) : Ty :=
  slots.foldr .arrow base

/-- A notation declaration slot `A : 0` (term slot of type A). -/
def slotA : Stx := .node "notation" [.node "ty" [.ident "A"], .atom ":", .num 0]

/-- A notation declaration slot `B : 0` (term slot of type B). -/
def slotB : Stx := .node "notation" [.node "ty" [.ident "B"], .atom ":", .num 0]

/-! Theorems. -/

theorem liftB_zero (t : Term) (k : Nat) : Term.liftB t 0 k = t := by
  induction t generalizing k with
  | bvar i => by_cases h : i < k <;> simp [Term.liftB, h]
  | fvar i => rfl
  | mvar n => rfl
  | app fn arg ihf iha => simp [Term.liftB, ihf, iha]
  | lam nm ty body ih => simp [Term.liftB, ih]
  | const n => rfl

theorem liftB_liftB (t : Term) (a b k : Nat) :
    Term.liftB (Term.liftB t a k) b k = Term.liftB t (a + b) k := by
  induction t generalizing k with
  | bvar i =>
    by_cases h : i < k
    · simp [Term.liftB, h]
    · have h2 : ¬ i + a < k := by omega
      simp [Term.liftB, h, h2, Nat.add_assoc]
  | fvar i => rfl
  | mvar n => rfl
  | app fn arg ihf iha => simp [Term.liftB, ihf, iha]
  | lam nm ty body ih => simp [Term.liftB, ih]
  | const n => rfl

theorem substB_liftB (t u : Term) (k : Nat) :
    Term.substB (Term.liftB t 1 k) u k = t := by
  induction t generalizing k with
  | bvar i =>
    by_cases h : i < k
    · have h1 : ¬ i = k := by omega
      have h2 : ¬ i > k := by omega
      simp [Term.liftB, h, Term.substB, h1, h2]
    · have h1 : ¬ i + 1 = k := by omega
      have h2 : i + 1 > k := by omega
      simp [Term.liftB, h, Term.substB, h1, h2]
  | fvar i => rfl
  | mvar n => rfl
  | app fn arg ihf iha => simp [Term.liftB, Term.substB, ihf, iha]
  | lam nm ty body ih => simp [Term.liftB, Term.substB, ih]
  | const n => rfl

/-- C7: bound-variable lift/substitution laws: for every term `t`, term `u`,
shift amounts `a`, `b` and cutoff `k`, `liftB(t, 0, k) = t`,
`liftB(liftB(t, a, k), b, k) = liftB(t, a+b, k)`, and
`substB(liftB(t, 1, k), u, k) = t`. -/
theorem C7_liftB_substB_laws :
    (∀ (t : Term) (k : Nat), Term.liftB t 0 k = t) ∧
    (∀ (t : Term) (a b k : Nat),
      Term.liftB (Term.liftB t a k) b k = Term.liftB t (a + b) k) ∧
    (∀ (t u : Term) (k : Nat), Term.substB (Term.liftB t 1 k) u k = t) :=
  ⟨liftB_zero, liftB_liftB, substB_liftB⟩

/-- C3: the claim fails on the code.  `liftF` increments the cutoff under
`lam` (so free indices are not flat for `liftF`, while `substF` keeps the
cutoff), and the lift-then-subst identity `substF(liftF(t,1,k), u, k) = t`
fails at `t = lam "x" A (fvar 0)`, `u = fvar 5`, `k = 0`: lifting leaves
`fvar 0` untouched under the lambda and substitution then rewrites it to
`u`, giving `lam "x" A (fvar 5) ≠ t`. -/
theorem C3_liftF_substF_not_flat :
    Term.liftF (Term.lam "x" (.base "A") (.fvar 0)) 1 0
      = Term.lam "x" (.base "A") (.fvar 0) ∧
    Term.substF (Term.liftF (Term.lam "x" (.base "A") (.fvar 0)) 1 0)
        (.fvar 5) 0
      = Term.lam "x" (.base "A") (.fvar 5) ∧
    Term.substF (Term.liftF (Term.lam "x" (.base "A") (.fvar 0)) 1 0)
        (.fvar 5) 0
      ≠ Term.lam "x" (.base "A") (.fvar 0) := by
  refine ⟨rfl, rfl, by decide⟩

theorem term_isDefEq_false (fuel : Nat) :
    ∀ (mctx : MCtx) (t1 t2 : Term) (mctxr : MCtx),
    Term.isDefEq fuel mctx t1 t2 = .ok (mctxr, false) → mctxr = mctx := by
  induction fuel with
  | zero => intro mctx t1 t2 mctxr h; simp [Term.isDefEq] at h
  | succ n ih =>
    intro mctx t1 t2 mctxr h
    unfold Term.isDefEq at h
    repeat' split at h
    all_goals first
      | simp_all
      | (exact ih _ _ _ _ h)

theorem rule_isDefEq_false :
    ∀ (r1 : Rule) (fuel : Nat) (mctx : MCtx) (r2 : Rule) (mctxr : MCtx),
    Rule.isDefEq fuel mctx r1 r2 = .ok (mctxr, false) → mctxr = mctx := by
  intro r1
  induction r1 with
  | proves p1 =>
    intro fuel mctx r2 mctxr h
    cases r2 with
    | proves p2 =>
      simp only [Rule.isDefEq] at h
      repeat' split at h
      all_goals simp_all
    | implies a b => simp only [Rule.isDefEq] at h; simp_all
    | all n2 s2 P2 => simp only [Rule.isDefEq] at h; simp_all
  | implies P1 Q1 ihP ihQ =>
    intro fuel mctx r2 mctxr h
    cases r2 with
    | proves p2 => simp only [Rule.isDefEq] at h; simp_all
    | implies P2 Q2 =>
      simp only [Rule.isDefEq] at h
      repeat' split at h
      all_goals simp_all
    | all n2 s2 P2 => simp only [Rule.isDefEq] at h; simp_all
  | all nm s1 P1 ihP =>
    intro fuel mctx r2 mctxr h
    cases r2 with
    | proves p2 => simp only [Rule.isDefEq] at h; simp_all
    | implies a b => simp only [Rule.isDefEq] at h; simp_all
    | all n2 s2 P2 =>
      simp only [Rule.isDefEq] at h
      split at h
      · exact ihP fuel mctx P2 mctxr h
      · simp_all

/-- C5: definitional equality is atomic on failure: whenever `Term.isDefEq`
or `Rule.isDefEq` returns `false`, the metavariable context it returns is
exactly the one it was given, with no residual assignments from partially
successful sub-comparisons. -/
theorem C5_isDefEq_failure_atomic :
    (∀ (fuel : Nat) (mctx : MCtx) (t1 t2 : Term) (mctxr : MCtx),
      Term.isDefEq fuel mctx t1 t2 = .ok (mctxr, false) → mctxr = mctx) ∧
    (∀ (fuel : Nat) (mctx : MCtx) (r1 r2 : Rule) (mctxr : MCtx),
      Rule.isDefEq fuel mctx r1 r2 = .ok (mctxr, false) → mctxr = mctx) :=
  ⟨term_isDefEq_false, fun fuel mctx r1 r2 => rule_isDefEq_false r1 fuel mctx r2⟩

/-- Witness for C5: comparing `app (mvar m) a` with `app c b` assigns `m`
in the function sub-comparison and then fails on the arguments, yet the
returned mctx is the original empty one; likewise for rules. -/
theorem C5_isDefEq_failure_atomic_witness :
    (Term.isDefEq 5 MCtx.default (.app (.mvar "m") (.const "a"))
      (.app (.const "c") (.const "b")) = .ok (MCtx.default, false)) ∧
    MCtx.default = MCtx.default ∧
    (Rule.isDefEq 5 MCtx.default
      (.implies (.proves (.mvar "m")) (.proves (.const "a")))
      (.implies (.proves (.const "c")) (.proves (.const "b")))
      = .ok (MCtx.default, false)) ∧
    MCtx.default = MCtx.default :=
  ⟨by decide,
   C5_isDefEq_failure_atomic.1 5 MCtx.default (.app (.mvar "m") (.const "a"))
     (.app (.const "c") (.const "b")) MCtx.default (by decide),
   by decide,
   C5_isDefEq_failure_atomic.2 5 MCtx.default
     (.implies (.proves (.mvar "m")) (.proves (.const "a")))
     (.implies (.proves (.const "c")) (.proves (.const "b")))
     MCtx.default (by decide)⟩


theorem skipWsAux_ge (cs : List Char) : ∀ i, i ≤ skipWsAux cs i := by
  induction cs with
  | nil => intro i; simp [skipWsAux]
  | cons c cs ih =>
    intro i
    unfold skipWsAux
    split
    · have := ih (i + 1)
      omega
    · omega

theorem skipWsAux_le (cs : List Char) : ∀ i, skipWsAux cs i ≤ i + cs.length := by
  induction cs with
  | nil => intro i; simp [skipWsAux]
  | cons c cs ih =>
    intro i
    unfold skipWsAux
    split
    · have := ih (i + 1)
      simp only [List.length_cons]
      omega
    · simp only [List.length_cons]
      omega

theorem skipWs_ge (text : List Char) (i : Nat) : i ≤ skipWs text i :=
  skipWsAux_ge (text.drop i) i

theorem skipWs_le (text : List Char) (i : Nat) (hi : i ≤ text.length) :
    skipWs text i ≤ text.length := by
  have h := skipWsAux_le (text.drop i) i
  have hlen : (text.drop i).length = text.length - i := by simp
  unfold skipWs
  omega

theorem skipWsAux_before (text : List Char) :
    ∀ (cs : List Char) (i : Nat), cs = text.drop i →
    ∀ j, i ≤ j → j < skipWsAux cs i → isWspace (text.getD j ' ') = true := by
  intro cs
  induction cs with
  | nil =>
    intro i hcs j h1 h2
    simp [skipWsAux] at h2
    omega
  | cons c cs ih =>
    intro i hcs j h1 h2
    have hi : i < text.length := by
      by_contra hc
      rw [List.drop_eq_nil_iff.mpr (by omega)] at hcs
      exact List.noConfusion hcs
    rw [List.drop_eq_getElem_cons hi] at hcs
    obtain ⟨hc1, hc2⟩ := List.cons.inj hcs
    unfold skipWsAux at h2
    split at h2
    · rename_i hw
      by_cases hji : i = j
      · subst hji
        rw [List.getD_eq_getElem _ _ hi, ← hc1]
        exact hw
      · exact ih (i + 1) hc2 j (by omega) h2
    · omega

theorem skipWsAux_stop (text : List Char) :
    ∀ (cs : List Char) (i : Nat), cs = text.drop i →
    skipWsAux cs i < text.length →
    isWspace (text.getD (skipWsAux cs i) ' ') = false := by
  intro cs
  induction cs with
  | nil =>
    intro i hcs h
    exfalso
    have h1 : text.length ≤ i := List.drop_eq_nil_iff.mp hcs.symm
    simp [skipWsAux] at h
    omega
  | cons c cs ih =>
    intro i hcs h
    have hi : i < text.length := by
      by_contra hc
      rw [List.drop_eq_nil_iff.mpr (by omega)] at hcs
      exact List.noConfusion hcs
    rw [List.drop_eq_getElem_cons hi] at hcs
    obtain ⟨hc1, hc2⟩ := List.cons.inj hcs
    by_cases hw : isWspace c
    · simp only [skipWsAux, if_pos hw] at h ⊢
      exact ih (i + 1) hc2 h
    · simp only [skipWsAux, if_neg hw] at h ⊢
      rw [List.getD_eq_getElem _ _ hi, ← hc1]
      simpa using hw

theorem skipWs_before_ws (text : List Char) (i : Nat) :
    ∀ j, i ≤ j → j < skipWs text i → isWspace (text.getD j ' ') = true :=
  skipWsAux_before text (text.drop i) i rfl

theorem skipWs_stop (text : List Char) (i : Nat) :
    skipWs text i < text.length →
    isWspace (text.getD (skipWs text i) ' ') = false :=
  skipWsAux_stop text (text.drop i) i rfl

theorem strEndAux_ge (cs : List Char) (e : Nat) : e ≤ strEndAux cs e := by
  induction cs, e using strEndAux.induct with
  | case1 e => rw [strEndAux.eq_def]
  | case2 cs e => rw [strEndAux.eq_def]; simp
  | case3 e h => rw [strEndAux.eq_def]; simp
  | case4 e head cs2 h ih => rw [strEndAux.eq_def]; simp; omega
  | case5 c cs e h1 h2 ih => rw [strEndAux.eq_def]; simp [h1, h2]; omega

theorem strEnd_ge (text : List Char) (e : Nat) : e ≤ strEnd text e :=
  strEndAux_ge (text.drop e) e

theorem digitEndAux_ge (cs : List Char) : ∀ e, e ≤ digitEndAux cs e := by
  induction cs with
  | nil => intro e; simp [digitEndAux]
  | cons c cs ih =>
    intro e
    unfold digitEndAux
    split
    · have := ih (e + 1)
      omega
    · omega

theorem digitEnd_ge (text : List Char) (e : Nat) : e ≤ digitEnd text e :=
  digitEndAux_ge (text.drop e) e

theorem identEndAux_ge (trie : Trie) (text : List Char) (cs : List Char) :
    ∀ e, e ≤ identEndAux trie text cs e := by
  induction cs with
  | nil => intro e; simp [identEndAux]
  | cons c cs ih =>
    intro e
    unfold identEndAux
    split
    · omega
    · split
      · omega
      · have := ih (e + 1)
        omega

theorem identEnd_ge (trie : Trie) (text : List Char) (e : Nat) :
    e ≤ identEnd trie text e :=
  identEndAux_ge trie text (text.drop e) e

theorem identEnd_progress (trie : Trie) (text : List Char) (e : Nat)
    (h1 : e < text.length) (h2 : isWspace (text.getD e ' ') = false)
    (h3 : ¬ Trie.matchLongest trie text e > 0) :
    e + 1 ≤ identEnd trie text e := by
  unfold identEnd
  rw [List.drop_eq_getElem_cons h1]
  rw [List.getD_eq_getElem _ _ h1] at h2
  simp only [identEndAux, h2, Bool.false_eq_true, if_false, if_neg h3]
  exact identEndAux_ge trie text (text.drop (e + 1)) (e + 1)

theorem sliceStr_ne_empty (text : List Char) (start stop : Nat)
    (h1 : start < text.length) (h2 : start < stop) :
    sliceStr text start stop ≠ "" := by
  unfold sliceStr
  intro hcon
  have hdata : (text.drop start).take (stop - start) = [] :=
    congrArg String.data hcon
  rcases List.take_eq_nil_iff.mp hdata with h | h
  · omega
  · have := List.drop_eq_nil_iff.mp h
    omega

theorem readTokenAt_none_iff (trie : Trie) (text : List Char) (start : Nat) :
    (readTokenAt trie text start).1 = none ↔ ¬ start < text.length := by
  unfold readTokenAt
  by_cases hlt : start < text.length
  · rw [dif_pos hlt]
    simp [hlt]
    split <;> try simp
    split <;> try simp
    split <;> simp
  · rw [dif_neg hlt]
    simp [hlt]

theorem readTokenAt_none_next (trie : Trie) (text : List Char) (start : Nat)
    (h : (readTokenAt trie text start).1 = none) :
    (readTokenAt trie text start).2 = start := by
  have hlt := (readTokenAt_none_iff trie text start).mp h
  unfold readTokenAt
  rw [dif_neg hlt]

theorem readTokenAt_some (trie : Trie) (text : List Char) (start : Nat)
    (hnw : isWspace (text.getD start ' ') = false) (tok : String)
    (h : (readTokenAt trie text start).1 = some tok) :
    tok ≠ "" ∧ start < (readTokenAt trie text start).2 := by
  have hlt : start < text.length := by
    by_contra hc
    rw [(readTokenAt_none_iff trie text start).mpr hc] at h
    exact Option.noConfusion h
  unfold readTokenAt at h ⊢
  rw [dif_pos hlt] at h ⊢
  by_cases hq : text[start] = '"'
  · rw [if_pos hq] at h ⊢
    have he := strEnd_ge text (start + 1)
    simp only [Option.some.injEq] at h
    subst h
    exact ⟨sliceStr_ne_empty text start _ hlt (by omega), by omega⟩
  · rw [if_neg hq] at h ⊢
    by_cases hd : (text[start]).isDigit
    · rw [if_pos hd] at h ⊢
      have he := digitEnd_ge text (start + 1)
      simp only [Option.some.injEq] at h
      subst h
      exact ⟨sliceStr_ne_empty text start _ hlt (by omega), by omega⟩
    · rw [if_neg hd] at h ⊢
      by_cases hm : Trie.matchLongest trie text start > 0
      · rw [if_pos hm] at h ⊢
        simp only [Option.some.injEq] at h
        subst h
        exact ⟨sliceStr_ne_empty text start _ hlt (by omega), by omega⟩
      · rw [if_neg hm] at h ⊢
        have he := identEnd_progress trie text start hlt hnw hm
        simp only [Option.some.injEq] at h
        subst h
        exact ⟨sliceStr_ne_empty text start _ hlt (by omega), by omega⟩

/-- C10: tokenizer progress.  Whenever `peek` returns a token, that token is
a non-empty string and `next` strictly advances the index; `peek` returns no
token exactly when only whitespace (or nothing) remains from the current
index, and in that case `next` does not move past the end of the text. -/
theorem C10_tokenizer_progress :
    (∀ (trie : Trie) (s : TokenStream) (tok : String),
      TokenStream.peek trie s = some tok →
      tok ≠ "" ∧ s.index < (TokenStream.next trie s).index) ∧
    (∀ (trie : Trie) (s : TokenStream),
      TokenStream.peek trie s = none ↔
      ∀ j, s.index ≤ j → j < s.text.length →
        isWspace (s.text.getD j ' ') = true) ∧
    (∀ (trie : Trie) (s : TokenStream),
      TokenStream.peek trie s = none → s.index ≤ s.text.length →
      (TokenStream.next trie s).index ≤ s.text.length) := by
  refine ⟨?_, ?_, ?_⟩
  · intro trie s tok h
    have hge := skipWs_ge s.text s.index
    unfold TokenStream.peek TokenStream.readToken at h
    by_cases hlt : skipWs s.text s.index < s.text.length
    · have hnw := skipWs_stop s.text s.index hlt
      have hr := readTokenAt_some trie s.text (skipWs s.text s.index) hnw tok h
      refine ⟨hr.1, ?_⟩
      show s.index < (readTokenAt trie s.text (skipWs s.text s.index)).2
      omega
    · rw [(readTokenAt_none_iff trie s.text _).mpr hlt] at h
      exact Option.noConfusion h
  · intro trie s
    unfold TokenStream.peek TokenStream.readToken
    constructor
    · intro h j h1 h2
      have hge := (readTokenAt_none_iff trie s.text _).mp h
      exact skipWs_before_ws s.text s.index j h1 (by omega)
    · intro hall
      rw [readTokenAt_none_iff]
      intro hlt
      have hnw := skipWs_stop s.text s.index hlt
      have hws := hall (skipWs s.text s.index) (skipWs_ge _ _) hlt
      rw [hws] at hnw
      exact Bool.noConfusion hnw
  · intro trie s h hi
    unfold TokenStream.peek TokenStream.readToken at h
    show (readTokenAt trie s.text (skipWs s.text s.index)).2 ≤ s.text.length
    rw [readTokenAt_none_next trie s.text _ h]
    exact skipWs_le s.text s.index hi

/-- Witness for C10 at concrete inputs: on the stream `"ab"` at index 0 the
peeked token is the non-empty string `"ab"` and `next` strictly advances;
on the all-blank stream `" "` `peek` is none, every remaining character is
whitespace, and `next` stays within the text. -/
theorem C10_tokenizer_progress_witness :
    (TokenStream.peek Trie.empty ⟨"ab".data, 0⟩ = some "ab" ∧
      "ab" ≠ "" ∧
      (0 : Nat) < (TokenStream.next Trie.empty ⟨"ab".data, 0⟩).index) ∧
    (TokenStream.peek Trie.empty ⟨" ".data, 0⟩ = none ∧
      (∀ j, 0 ≤ j → j < (" ".data : List Char).length →
        isWspace ((" ".data : List Char).getD j ' ') = true)) ∧
    (TokenStream.next Trie.empty ⟨" ".data, 0⟩).index ≤
      (" ".data : List Char).length := by
  refine ⟨⟨by decide, ?_, ?_⟩, ⟨by decide, ?_⟩, ?_⟩
  · exact (C10_tokenizer_progress.1 Trie.empty ⟨"ab".data, 0⟩ "ab" (by decide)).1
  · exact (C10_tokenizer_progress.1 Trie.empty ⟨"ab".data, 0⟩ "ab" (by decide)).2
  · exact (C10_tokenizer_progress.2.1 Trie.empty ⟨" ".data, 0⟩).mp (by decide)
  · exact C10_tokenizer_progress.2.2 Trie.empty ⟨" ".data, 0⟩ (by decide)
      (by decide)

/-- C1: the claim fails on the code.  On the goal `p => p => p` the script
intro h1; intro h2; have h3 : p; apply h1; apply h3 succeeds and leaves
zero goals, and `instHole` on the root hole yields the hole-free proof
`impI p (impI p (hyp 2))`; but `Proof.check` raises the kernel error
"invalid hypothesis: #2" instead of returning a rule def-equal to the
goal, because `Tactic.apply` installs `hyp idx` for a have-introduced
hypothesis instead of its stored deferred proof. -/
theorem C1_have_apply_breaks_check :
    c1Goals = .ok [] ∧
    c1InstProof = .ok (.impI pRule (.impI pRule (.hyp 2))) ∧
    c1Checked = .err "invalid hypothesis: #2" :=
  ⟨by decide, by decide, by decide⟩

/-- C2 counterexample: after intro h1; intro h2 on the goal `p => p => p`
the head goal's hypothesis names are `[h1, h2]` — the context grew at the
tail, not at the head as the claim states (head growth would give
`[h2, h1]` with the innermost at index 0). -/
theorem C2_ctx_grows_at_tail_counterexample :
    c2CtxNames = .ok ["h1", "h2"] ∧
    c2CtxNames ≠ .ok ["h2", "h1"] :=
  ⟨by decide, by decide⟩

theorem instMCtxList_names (fuel : Nat) (mctx : MCtx) :
    ∀ (l l2 : List (String × Rule × Option Proof)),
    Tactic.instMCtxList fuel mctx l = .ok l2 →
    l2.map (fun e => e.1) = l.map (fun e => e.1) := by
  intro l
  induction l with
  | nil =>
    intro l2 h
    simp only [Tactic.instMCtxList] at h
    injection h with h
    subst h
    rfl
  | cons e rest ih =>
    intro l2 h
    simp only [Tactic.instMCtxList] at h
    cases hE : Tactic.instMCtxEntry fuel mctx e with
    | err e2 => simp only [hE] at h; exact MRes.noConfusion h
    | out => simp only [hE] at h; exact MRes.noConfusion h
    | ok e2 =>
      simp only [hE] at h
      cases hR : Tactic.instMCtxList fuel mctx rest with
      | err e3 => simp only [hR] at h; exact MRes.noConfusion h
      | out => simp only [hR] at h; exact MRes.noConfusion h
      | ok rest2 =>
        simp only [hR] at h
        injection h with h
        subst h
        have hn : e2.1 = e.1 := by
          obtain ⟨n, r, p⟩ := e
          simp only [Tactic.instMCtxEntry] at hE
          cases hI : Rule.instM fuel mctx r with
          | err e4 => simp only [hI] at hE; exact MRes.noConfusion hE
          | out => simp only [hI] at hE; exact MRes.noConfusion hE
          | ok r2 =>
            simp only [hI] at hE
            injection hE with hE
            subst hE
            rfl
        simp [hn, ih rest2 hR]

theorem instMGoal_shape (fuel : Nat) (mctx : MCtx) (g g2 : Goal)
    (h : Tactic.instMGoal fuel mctx g = .ok g2) :
    g2.holeId = g.holeId ∧ g2.fctx = g.fctx ∧
    g2.ctx.map (fun e => e.1) = g.ctx.map (fun e => e.1) := by
  simp only [Tactic.instMGoal] at h
  cases hT : Rule.instM fuel mctx g.target with
  | err e => simp only [hT] at h; exact MRes.noConfusion h
  | out => simp only [hT] at h; exact MRes.noConfusion h
  | ok t =>
    simp only [hT] at h
    cases hC : Tactic.instMCtxList fuel mctx g.ctx with
    | err e => simp only [hC] at h; exact MRes.noConfusion h
    | out => simp only [hC] at h; exact MRes.noConfusion h
    | ok c =>
      simp only [hC] at h
      injection h with h
      subst h
      exact ⟨rfl, rfl, instMCtxList_names fuel mctx g.ctx c hC⟩

theorem instMGoals_cons (fuel : Nat) (mctx : MCtx) (g : Goal) (gs l : List Goal)
    (h : Tactic.instMGoals fuel mctx (g :: gs) = .ok l) :
    ∃ g2 l2, l = g2 :: l2 ∧ Tactic.instMGoal fuel mctx g = .ok g2 ∧
      Tactic.instMGoals fuel mctx gs = .ok l2 := by
  simp only [Tactic.instMGoals] at h
  cases hG : Tactic.instMGoal fuel mctx g with
  | err e => simp only [hG] at h; exact MRes.noConfusion h
  | out => simp only [hG] at h; exact MRes.noConfusion h
  | ok g2 =>
    simp only [hG] at h
    cases hL : Tactic.instMGoals fuel mctx gs with
    | err e => simp only [hL] at h; exact MRes.noConfusion h
    | out => simp only [hL] at h; exact MRes.noConfusion h
    | ok l2 =>
      simp only [hL] at h
      injection h with h
      subst h
      exact ⟨g2, l2, rfl, rfl, rfl⟩

theorem replaceGoal_ok (fuel : Nat) (ts : TacticState) (newGoals : List Goal)
    (g : Goal) (tail : List Goal) (ts' : TacticState)
    (hgoals : ts.goals = g :: tail)
    (h : Tactic.replaceGoal fuel ts newGoals = .ok ts') :
    ∃ l, Tactic.instMGoals fuel ts.mctx (newGoals ++ tail) = .ok l ∧
      ts'.goals = l := by
  simp only [Tactic.replaceGoal, hgoals] at h
  cases hI : Tactic.instMGoals fuel ts.mctx (newGoals ++ tail) with
  | err e => simp only [hI] at h; exact MRes.noConfusion h
  | out => simp only [hI] at h; exact MRes.noConfusion h
  | ok l =>
    simp only [hI] at h
    injection h with h
    subst h
    exact ⟨l, rfl, rfl⟩

theorem intro_implies_shape (fuel : Nat) (ts ts' : TacticState) (name : String)
    (g : Goal) (rest : List Goal) (P Q : Rule)
    (hg : ts.goals = g :: rest) (ht : g.target = .implies P Q)
    (h : Tactic.intro fuel ts name = .ok ts') :
    ts'.goals.head?.map (fun g1 => g1.ctx.map (fun e => e.1))
      = some (g.ctx.map (fun e => e.1) ++ [name]) ∧
    ts'.goals.head?.map Goal.fctx = some g.fctx := by
  simp only [Tactic.intro, Tactic.getGoal, hg, ht, Tactic.mkHole,
    Tactic.assignProof] at h
  obtain ⟨l, hl, hgoals⟩ := replaceGoal_ok fuel _ _ g rest ts' rfl h
  simp only [List.singleton_append] at hl
  obtain ⟨g2, l2, hl2, hG, _⟩ := instMGoals_cons _ _ _ _ _ hl
  have hs := instMGoal_shape _ _ _ _ hG
  rw [hgoals, hl2]
  constructor
  · simp only [List.head?_cons, Option.map_some']
    rw [hs.2.2]
    simp
  · simp only [List.head?_cons, Option.map_some']
    rw [hs.2.1]

theorem intro_all_shape (fuel : Nat) (ts ts' : TacticState) (name nm : String)
    (g : Goal) (rest : List Goal) (s : Ty) (P : Rule)
    (hg : ts.goals = g :: rest) (ht : g.target = .all nm s P)
    (h : Tactic.intro fuel ts name = .ok ts') :
    ts'.goals.head?.map Goal.fctx = some ((name, s) :: g.fctx) ∧
    ts'.goals.head?.map (fun g1 => g1.ctx.map (fun e => e.1))
      = some (g.ctx.map (fun e => e.1)) := by
  simp only [Tactic.intro, Tactic.getGoal, hg, ht, Tactic.mkHole,
    Tactic.assignProof] at h
  obtain ⟨l, hl, hgoals⟩ := replaceGoal_ok fuel _ _ g rest ts' rfl h
  simp only [List.singleton_append] at hl
  obtain ⟨g2, l2, hl2, hG, _⟩ := instMGoals_cons _ _ _ _ _ hl
  have hs := instMGoal_shape _ _ _ _ hG
  rw [hgoals, hl2]
  constructor
  · simp only [List.head?_cons, Option.map_some']
    rw [hs.2.1]
  · simp only [List.head?_cons, Option.map_some']
    rw [hs.2.2]

theorem haveT_shape (fuel : Nat) (ts ts' : TacticState) (name : String)
    (g : Goal) (rest : List Goal) (r : Rule)
    (hg : ts.goals = g :: rest)
    (h : Tactic.haveT fuel ts name r = .ok ts') :
    ts'.goals[1]?.map (fun g1 => g1.ctx.map (fun e => e.1))
      = some (g.ctx.map (fun e => e.1) ++ [name]) ∧
    ts'.goals[0]?.map (fun g1 => g1.ctx.map (fun e => e.1))
      = some (g.ctx.map (fun e => e.1)) := by
  simp only [Tactic.haveT, Tactic.getGoal, hg, Tactic.mkHole] at h
  obtain ⟨l, hl, hgoals⟩ := replaceGoal_ok fuel _ _ g rest ts' rfl h
  simp only [List.cons_append, List.singleton_append] at hl
  obtain ⟨g2, l2, hl2, hG2, hl2rest⟩ := instMGoals_cons _ _ _ _ _ hl
  obtain ⟨g3, l3, hl3, hG3, _⟩ := instMGoals_cons _ _ _ _ _ hl2rest
  have hs2 := instMGoal_shape _ _ _ _ hG2
  have hs3 := instMGoal_shape _ _ _ _ hG3
  rw [hgoals, hl2, hl3]
  constructor
  · simp only [List.getElem?_cons_succ, List.getElem?_cons_zero,
      Option.map_some']
    rw [hs3.2.2]
    simp
  · simp only [List.getElem?_cons_zero, Option.map_some']
    rw [hs2.2.2]

theorem check_hyp_lookup (fuel : Nat) (mctx : MCtx) (cctx : List (String × Ty))
    (ax : List (String × Rule)) (ctx : List Rule) (fctx : List (String × Ty))
    (i : Nat) (r : Rule) (h : ctx[i]? = some r) :
    Proof.check fuel mctx cctx ax ctx fctx (.hyp i) = .ok r := by
  simp [Proof.check, h]

theorem check_impI_tail (fuel : Nat) (mctx : MCtx) (cctx : List (String × Ty))
    (ax : List (String × Rule)) (ctx : List Rule) (fctx : List (String × Ty))
    (P Q : Rule) (hq : Proof)
    (h : Proof.check fuel mctx cctx ax (ctx ++ [P]) fctx hq = .ok Q) :
    Proof.check fuel mctx cctx ax ctx fctx (.impI P hq) = .ok (.implies P Q) := by
  simp [Proof.check, h]

/-- C2 (amended): the hypothesis context `ctx` is an ordered stack that
grows at the TAIL when extended by the intro and have tactics (so index 0
refers to the outermost, first-introduced hypothesis, matching
`Proof.check`, whose `impI` case also appends at the tail and whose
`hyp i` lookup indexes from the head), while the free-variable context
`fctx` does grow at the head when extended by intro, with index 0 the
innermost binding. -/
theorem C2_ctx_tail_fctx_head :
    (∀ (fuel : Nat) (ts ts' : TacticState) (name : String) (g : Goal)
      (rest : List Goal) (P Q : Rule),
      ts.goals = g :: rest → g.target = .implies P Q →
      Tactic.intro fuel ts name = .ok ts' →
      ts'.goals.head?.map (fun g1 => g1.ctx.map (fun e => e.1))
        = some (g.ctx.map (fun e => e.1) ++ [name]) ∧
      ts'.goals.head?.map Goal.fctx = some g.fctx) ∧
    (∀ (fuel : Nat) (ts ts' : TacticState) (name nm : String) (g : Goal)
      (rest : List Goal) (s : Ty) (P : Rule),
      ts.goals = g :: rest → g.target = .all nm s P →
      Tactic.intro fuel ts name = .ok ts' →
      ts'.goals.head?.map Goal.fctx = some ((name, s) :: g.fctx) ∧
      ts'.goals.head?.map (fun g1 => g1.ctx.map (fun e => e.1))
        = some (g.ctx.map (fun e => e.1))) ∧
    (∀ (fuel : Nat) (ts ts' : TacticState) (name : String) (g : Goal)
      (rest : List Goal) (r : Rule),
      ts.goals = g :: rest →
      Tactic.haveT fuel ts name r = .ok ts' →
      ts'.goals[1]?.map (fun g1 => g1.ctx.map (fun e => e.1))
        = some (g.ctx.map (fun e => e.1) ++ [name]) ∧
      ts'.goals[0]?.map (fun g1 => g1.ctx.map (fun e => e.1))
        = some (g.ctx.map (fun e => e.1))) ∧
    (∀ (fuel : Nat) (mctx : MCtx) (cctx : List (String × Ty))
      (ax : List (String × Rule)) (ctx : List Rule) (fctx : List (String × Ty))
      (i : Nat) (r : Rule),
      ctx[i]? = some r →
      Proof.check fuel mctx cctx ax ctx fctx (.hyp i) = .ok r) ∧
    (∀ (fuel : Nat) (mctx : MCtx) (cctx : List (String × Ty))
      (ax : List (String × Rule)) (ctx : List Rule) (fctx : List (String × Ty))
      (P Q : Rule) (hq : Proof),
      Proof.check fuel mctx cctx ax (ctx ++ [P]) fctx hq = .ok Q →
      Proof.check fuel mctx cctx ax ctx fctx (.impI P hq) = .ok (.implies P Q)) :=
  ⟨intro_implies_shape, intro_all_shape, haveT_shape, check_hyp_lookup,
   check_impI_tail⟩

/-- Witness for C2 (amended) at concrete inputs: the intro, have and check
behaviours observed on the example goals. -/
theorem C2_ctx_tail_fctx_head_witness :
    (c2Step1.goals.head?.map (fun g1 => g1.ctx.map (fun e => e.1))
      = some ["h1"] ∧
     c2Step1.goals.head?.map Goal.fctx = some []) ∧
    (cAllStep.goals.head?.map Goal.fctx = some [("x", .base "T")] ∧
     cAllStep.goals.head?.map (fun g1 => g1.ctx.map (fun e => e.1))
      = some []) ∧
    (cHaveStep.goals[1]?.map (fun g1 => g1.ctx.map (fun e => e.1))
      = some ["h"] ∧
     cHaveStep.goals[0]?.map (fun g1 => g1.ctx.map (fun e => e.1))
      = some []) ∧
    Proof.check 5 MCtx.default [] [] [pRule] [] (.hyp 0) = .ok pRule ∧
    Proof.check 5 MCtx.default [] [] [] [] (.impI pRule (.hyp 0))
      = .ok (.implies pRule pRule) := by
  refine ⟨?_, ?_, ?_, ?_, ?_⟩
  · exact C2_ctx_tail_fctx_head.1 50 demoInit c2Step1 "h1"
      ⟨"_hole_0", pppRule, [], []⟩ [] pRule (.implies pRule pRule)
      (by decide) (by decide) (by decide)
  · exact C2_ctx_tail_fctx_head.2.1 50 demoInitAll cAllStep "x" "x"
      ⟨"_hole_0", allRule, [], []⟩ [] (.base "T") (.proves (.fvar 0))
      (by decide) (by decide) (by decide)
  · exact C2_ctx_tail_fctx_head.2.2.1 50 demoInit cHaveStep "h"
      ⟨"_hole_0", pppRule, [], []⟩ [] pRule
      (by decide) (by decide)
  · exact C2_ctx_tail_fctx_head.2.2.2.1 5 MCtx.default [] [] [pRule] [] 0 pRule
      (by decide)
  · exact C2_ctx_tail_fctx_head.2.2.2.2 5 MCtx.default [] [] [] [] pRule pRule
      (.hyp 0) (by decide)

/-- C6: committed-choice parsing.  A descriptor sub-parse failure after the
stream has moved away from the rule's start becomes fatal; a fatal prefix
failure propagates out of the prefix loop (skipping the remaining prefix
rules) and out of `parse`; a fatal failure terminates a `many` loop and the
first call of `many1` passes failures through unchanged; a non-fatal prefix
failure makes the loop try the next prefix rule at the original stream. -/
theorem C6_committed_choice :
    (∀ (fuel : Nat) (current : TokenStream) (d : PDescr) (rest : List PDescr)
      (saved : Nat) (args : List Stx) (parsers : Parsers) (trie : Trie)
      (r : String),
      current.index ≠ saved →
      parseArg fuel current d parsers trie = .ok (.fail r false) →
      parseRuleLoop (fuel + 1) current (d :: rest) saved args parsers trie
        = .ok (.fail r true)) ∧
    (∀ (fuel : Nat) (stream : TokenStream) (tt : String) (rule : Parser)
      (rest : List Parser) (lastError : PRes) (parsers : Parsers) (trie : Trie)
      (r : String),
      parseRule fuel stream rule.descr parsers trie none = .ok (.fail r true) →
      parsePrefixRules (fuel + 1) stream tt (rule :: rest) parsers trie
        lastError = .ok (.fail r true)) ∧
    (∀ (fuel : Nat) (stream : TokenStream) (tt : String) (parsers : Parsers)
      (trie : Trie) (minPrec : Nat) (r : String),
      parsers tt ≠ [] →
      parsePrefixRules fuel stream tt
        ((parsers tt).filter (fun rule => !firstIsRecurseSelf rule.descr tt))
        parsers trie (PRes.fail "unexpected syntax" false)
        = .ok (.fail r true) →
      parse (fuel + 1) stream tt parsers trie minPrec = .ok (.fail r true)) ∧
    (∀ (fuel : Nat) (curr : TokenStream) (rule : PDescr) (items : List Stx)
      (parsers : Parsers) (trie : Trie) (r : String),
      parseArg fuel curr rule parsers trie = .ok (.fail r true) →
      manyLoop (fuel + 1) curr rule items parsers trie = .ok (.fail r true)) ∧
    (∀ (fuel : Nat) (stream : TokenStream) (rule : PDescr) (parsers : Parsers)
      (trie : Trie) (r : String) (f : Bool),
      parseArg fuel stream rule parsers trie = .ok (.fail r f) →
      parseArg (fuel + 1) stream (.many1 rule) parsers trie = .ok (.fail r f)) ∧
    (∀ (fuel : Nat) (stream : TokenStream) (tt : String) (rule : Parser)
      (rest : List Parser) (lastError : PRes) (parsers : Parsers) (trie : Trie)
      (r : String),
      parseRule fuel stream rule.descr parsers trie none = .ok (.fail r false) →
      parsePrefixRules (fuel + 1) stream tt (rule :: rest) parsers trie
        lastError
        = parsePrefixRules fuel stream tt rest parsers trie (.fail r false)) := by
  refine ⟨?_, ?_, ?_, ?_, ?_, ?_⟩
  · intro fuel current d rest saved args parsers trie r hne hpa
    have hc : (current.index != saved) = true := by
      simp [bne_iff_ne, hne]
    simp [parseRuleLoop, hpa, hc]
  · intro fuel stream tt rule rest lastError parsers trie r h
    simp [parsePrefixRules, h]
  · intro fuel stream tt parsers trie minPrec r hne hp
    cases hpt : parsers tt with
    | nil => exact absurd hpt hne
    | cons a l =>
      rw [hpt] at hp
      simp [parse, hpt, hp]
  · intro fuel curr rule items parsers trie r h
    simp [manyLoop, h]
  · intro fuel stream rule parsers trie r f h
    simp [parseArg, h]
  · intro fuel stream tt rule rest lastError parsers trie r h
    simp [parsePrefixRules, h]

/-- Witness for C6 at concrete inputs, using the tiny grammars: the
committed symbol-mismatch becomes fatal, the fatal failure skips the second
prefix rule and surfaces from `parse`, terminates many and many1, and a
non-fatal first prefix rule lets the second one succeed at the same
position. -/
theorem C6_committed_choice_witness :
    parseRuleLoop 21 ⟨"y".data, 0⟩ [.symbol "x"] 5 [] defaultParsers
      defaultTrie = .ok (.fail "expected x, got y" true) ∧
    parsePrefixRules 30 ⟨"x y".data, 0⟩ "X"
      [⟨10, [.symbol "x", .symbol "z"]⟩, ⟨5, [.ident]⟩] gram1 trie1
      (PRes.fail "unexpected syntax" false)
      = .ok (.fail "expected z, got y" true) ∧
    parse 30 ⟨"x y".data, 0⟩ "X" gram1 trie1 0
      = .ok (.fail "expected z, got y" true) ∧
    manyLoop 30 ⟨"x y".data, 0⟩ (.recurse "X" 0) [] gram1 trie1
      = .ok (.fail "expected z, got y" true) ∧
    parseArg 30 ⟨"x y".data, 0⟩ (.many1 (.recurse "X" 0)) gram1 trie1
      = .ok (.fail "expected z, got y" true) ∧
    parsePrefixRules 30 ⟨"x".data, 0⟩ "X"
      [⟨10, [.symbol "z"]⟩, ⟨5, [.symbol "x"]⟩] gram2 trie1
      (PRes.fail "unexpected syntax" false)
      = parsePrefixRules 29 ⟨"x".data, 0⟩ "X" [⟨5, [.symbol "x"]⟩] gram2 trie1
        (.fail "expected z, got x" false) := by
  refine ⟨?_, ?_, ?_, ?_, ?_, ?_⟩
  · exact C6_committed_choice.1 20 ⟨"y".data, 0⟩ (.symbol "x") [] 5 []
      defaultParsers defaultTrie "expected x, got y" (by decide) (by decide)
  · exact C6_committed_choice.2.1 29 ⟨"x y".data, 0⟩ "X"
      ⟨10, [.symbol "x", .symbol "z"]⟩ [⟨5, [.ident]⟩]
      (PRes.fail "unexpected syntax" false) gram1 trie1 "expected z, got y"
      (by decide)
  · exact C6_committed_choice.2.2.1 29 ⟨"x y".data, 0⟩ "X" gram1 trie1 0
      "expected z, got y" (by decide) (by decide)
  · exact C6_committed_choice.2.2.2.1 29 ⟨"x y".data, 0⟩ (.recurse "X" 0) []
      gram1 trie1 "expected z, got y" (by decide)
  · exact C6_committed_choice.2.2.2.2.1 29 ⟨"x y".data, 0⟩ (.recurse "X" 0)
      gram1 trie1 "expected z, got y" true (by decide)
  · exact C6_committed_choice.2.2.2.2.2 29 ⟨"x".data, 0⟩ "X"
      ⟨10, [.symbol "z"]⟩ [⟨5, [.symbol "x"]⟩]
      (PRes.fail "unexpected syntax" false) gram2 trie1 "expected z, got x"
      (by decide)

theorem slotTys_append (a b : List NotationDescr) :
    slotTys (a ++ b) = slotTys a ++ slotTys b := by
  simp [slotTys]

theorem slotTys_atom (v : String) : slotTys [NotationDescr.atom v] = [] := rfl

theorem slotTys_term (t : Ty) (k : Nat) : slotTys [NotationDescr.term t k] = [t] := rfl

/-- The accumulator invariant of `elabNotationAux`: the final type folds the
newly added term-slot types onto the incoming `ty`, innermost-first. -/
theorem elabNotationAux_ty :
    ∀ (fuel : Nat) (stxs : List Stx) (nd : List NotationDescr)
      (pd : List PDescr) (kw : List String) (ty : Ty)
      (nd' : List NotationDescr) (pd' : List PDescr) (kw' : List String)
      (ty' : Ty),
    elabNotationAux fuel stxs nd pd kw ty = .ok (nd', pd', kw', ty') →
    ∃ ds, slotTys nd' = slotTys nd ++ ds ∧
      ty' = ds.foldl (fun acc t => Ty.arrow t acc) ty := by
  intro fuel stxs nd pd kw ty
  induction fuel, stxs, nd, pd, kw, ty using elabNotationAux.induct with
  | case1 x nd pd kw ty =>
    intro nd' pd' kw' ty' h
    simp only [elabNotationAux] at h
    injection h with h
    simp only [Prod.mk.injEq] at h
    obtain ⟨rfl, rfl, rfl, rfl⟩ := h
    exact ⟨[], by simp, rfl⟩
  | case2 fuel rest nd pd kw ty args v h0 ih =>
    intro nd' pd' kw' ty' h
    simp only [elabNotationAux, h0] at h
    obtain ⟨ds, hds, hty⟩ := ih nd' pd' kw' ty' h
    rw [slotTys_append, slotTys_atom, List.append_nil] at hds
    exact ⟨ds, hds, hty⟩
  | case3 fuel rest nd pd kw ty args a0 k h2 h1 h0 e hE =>
    intro nd' pd' kw' ty' h
    simp only [elabNotationAux, h0, h1, h2, hE] at h
    exact MRes.noConfusion h
  | case4 fuel rest nd pd kw ty args a0 k h2 h1 h0 hE =>
    intro nd' pd' kw' ty' h
    simp only [elabNotationAux, h0, h1, h2, hE] at h
    exact MRes.noConfusion h
  | case5 fuel rest nd pd kw ty args a0 k h2 h1 h0 t hE ih =>
    intro nd' pd' kw' ty' h
    simp only [elabNotationAux, h0, h1, h2, hE] at h
    obtain ⟨ds, hds, hty⟩ := ih nd' pd' kw' ty' h
    rw [slotTys_append, slotTys_term, List.append_assoc,
      List.singleton_append] at hds
    refine ⟨t :: ds, hds, ?_⟩
    simp only [List.foldl_cons]
    exact hty
  | case6 fuel rest nd pd kw ty args hstr hterm =>
    intro nd' pd' kw' ty' h
    simp only [elabNotationAux] at h
    exact MRes.noConfusion h
  | case7 fuel stx rest nd pd kw ty hn =>
    intro nd' pd' kw' ty' h
    simp only [elabNotationAux] at h
    exact MRes.noConfusion h
/-- C4: the declared constant's type is obtained from the term slots in
source order by folding `fun acc t => arrow t acc` onto the base type, so
the LAST slot's type is the outermost argument: the slots are curried in
REVERSE source order, arrow(tau_n, arrow(tau_(n-1), ..., arrow(tau_1,
baseTy))). -/
theorem C4_notation_const_ty (fuel : Nat) (stxs : List Stx) (name : String)
    (prec : Nat) (base : Ty) (nt : NotationR) (p : Parser) (kw : List String)
    (ty : Ty)
    (h : elabNotationR fuel stxs name prec base = .ok (nt, p, kw, ty)) :
    ty = (slotTys nt.descr).foldl (fun acc t => Ty.arrow t acc) base := by
  unfold elabNotationR at h
  cases hA : elabNotationAux fuel stxs [] [] [] base with
  | err e => rw [hA] at h; exact MRes.noConfusion h
  | out => rw [hA] at h; exact MRes.noConfusion h
  | ok q =>
    obtain ⟨nd, pd, kws, ty2⟩ := q
    rw [hA] at h
    injection h with h
    simp only [Prod.mk.injEq] at h
    obtain ⟨h1, h2, h3, h4⟩ := h
    obtain ⟨ds, hds, hty⟩ :=
      elabNotationAux_ty fuel stxs [] [] [] base nd pd kws ty2 hA
    rw [show slotTys ([] : List NotationDescr) = [] from rfl,
      List.nil_append] at hds
    subst h1
    subst h4
    show ty2 = (slotTys nd).foldl (fun acc t => Ty.arrow t acc) base
    rw [hds]
    exact hty

theorem C4_notation_const_ty_witness :
    Ty.arrow (.base "B") (.arrow (.base "A") (.base "o")) =
      (slotTys [NotationDescr.term (.base "A") 0,
        NotationDescr.term (.base "B") 0]).foldl
        (fun acc t => Ty.arrow t acc) (Ty.base "o") :=
  C4_notation_const_ty 50 [slotA, slotB] "c" 30 (Ty.base "o")
    ⟨"c", [NotationDescr.term (.base "A") 0, NotationDescr.term (.base "B") 0]⟩
    ⟨30, [PDescr.recurse "term" 0, PDescr.recurse "term" 0]⟩ []
    (Ty.arrow (.base "B") (.arrow (.base "A") (.base "o"))) rfl

/-- C4 counterexample to the spec's source-order currying: a notation with
two term slots A then B gets constant type arrow(B, arrow(A, o)), which is
not the source-order curry arrow(A, arrow(B, o)), and the left-associated
source-order application c a b is ill-typed under the actual constant
type. -/
theorem C4_source_order_curry_counterexample :
    elabNotationR 50 [slotA, slotB] "c" 30 (Ty.base "o") =
      .ok (⟨"c", [NotationDescr.term (.base "A") 0,
          NotationDescr.term (.base "B") 0]⟩,
        ⟨30, [PDescr.recurse "term" 0, PDescr.recurse "term" 0]⟩, [],
        .arrow (.base "B") (.arrow (.base "A") (.base "o"))) ∧
    Ty.arrow (.base "B") (.arrow (.base "A") (.base "o")) ≠
      specNotationConstTy [Ty.base "A", Ty.base "B"] (Ty.base "o") ∧
    Term.inferType MCtx.default
      [("c", Ty.arrow (.base "B") (.arrow (.base "A") (.base "o"))),
        ("a", Ty.base "A"), ("b", Ty.base "B")] [] []
      (.app (.app (.const "c") (.const "a")) (.const "b")) =
      .err "type mismatch in application" :=
  ⟨rfl, by decide, rfl⟩
/-- C9: when a command parse fails, the driver reports the failure reason
iff the failure is fatal or a (truthy) token remains in the stream, and
otherwise finishes cleanly with "all good"; the empty script succeeds. -/
theorem C9_driver_parse_failure (fuel : Nat) (st : TokenStream)
    (state : CoreState) (reason : String) (fatal : Bool)
    (h : parse fuel st "command" state.parsers state.trie 0 =
      .ok (.fail reason fatal)) :
    (processFrom (fuel + 1) st state =
      .ok (if fatal || tokenTruthy (TokenStream.peek state.trie st)
        then reason else "all good")) ∧
    processText 10 "" = .ok "all good" := by
  constructor
  · simp only [processFrom, h]
    rw [apply_ite MRes.ok]
  · rfl

theorem C9_driver_parse_failure_witness :
    (processFrom 31 ⟨"axiom".data, 0⟩ defaultCoreState =
      .ok (if (true : Bool) ||
          tokenTruthy (TokenStream.peek defaultCoreState.trie
            ⟨"axiom".data, 0⟩)
        then "unexpected EOF, expected identifier" else "all good")) ∧
    processText 10 "" = .ok "all good" :=
  C9_driver_parse_failure 30 ⟨"axiom".data, 0⟩ defaultCoreState
    "unexpected EOF, expected identifier" true (by decide)
theorem Trie.has_empty (v : List Char) : Trie.empty.has v = false := by
  cases v <;> rfl

theorem Trie.insertAux_cons (e : Bool) (ch : Char → Option Trie) (c : Char)
    (cs : List Char) :
    Trie.insertAux (.mk e ch) (c :: cs) =
      .mk e (fun d => if d = c then
        some (Trie.insertAux ((ch c).getD Trie.empty) cs) else ch d) := by
  simp only [Trie.insertAux]
  cases hc : ch c <;> simp [hc]

theorem Trie.has_insertAux : ∀ (w : List Char) (t : Trie) (v : List Char),
    (Trie.insertAux t w).has v = (decide (v = w) || t.has v) := by
  intro w
  induction w with
  | nil =>
    intro t v
    cases t with
    | mk e ch =>
      cases v with
      | nil => simp [Trie.insertAux, Trie.has, Trie.endF]
      | cons d ds => simp [Trie.insertAux, Trie.has, Trie.children]
  | cons c cs ih =>
    intro t v
    cases t with
    | mk e ch =>
      cases v with
      | nil => simp [Trie.insertAux_cons, Trie.has, Trie.endF]
      | cons d ds =>
        rw [Trie.insertAux_cons]
        by_cases hdc : d = c
        · subst hdc
          cases hc : ch d with
          | none =>
            simp [Trie.has, Trie.children, hc, ih, Trie.has_empty]
          | some t2 =>
            simp [Trie.has, Trie.children, hc, ih]
        · simp [Trie.has, Trie.children, hdc]
theorem Trie.has_insert (t : Trie) (w v : List Char) :
    (Trie.insert t w).has v =
      ((decide (v = w) && !w.isEmpty) || t.has v) := by
  unfold Trie.insert
  by_cases hw : w.isEmpty
  · simp [hw]
  · simp [hw, Trie.has_insertAux]

theorem Trie.has_foldl : ∀ (ws : List (List Char)) (t : Trie) (v : List Char),
    (ws.foldl Trie.insert t).has v =
      (t.has v || (decide (v ∈ ws) && !v.isEmpty)) := by
  intro ws
  induction ws with
  | nil => intro t v; simp
  | cons w ws ih =>
    intro t v
    simp only [List.foldl_cons, ih, Trie.has_insert]
    by_cases hv : v = w
    · subst hv
      by_cases he : v.isEmpty <;> simp [he, List.mem_cons]
    · simp [hv, List.mem_cons, Ne.symm hv]

theorem Trie.has_fromWords (ws : List (List Char)) (v : List Char) :
    (Trie.fromWords ws).has v = true ↔ v ∈ ws ∧ v ≠ [] := by
  simp [Trie.fromWords, Trie.has_foldl, Trie.has_empty, List.isEmpty_iff]
theorem Trie.matchLongestAux_best : ∀ (cs : List Char) (t : Trie) (cl mm : Nat),
    Trie.matchLongestAux t cs cl mm =
      if Trie.best t cs = 0 then mm else cl + Trie.best t cs := by
  intro cs
  induction cs with
  | nil => intro t cl mm; simp [Trie.matchLongestAux, Trie.best]
  | cons c cs ih =>
    intro t cl mm
    cases hc : t.children c with
    | none => simp [Trie.matchLongestAux, Trie.best, hc]
    | some next =>
      simp only [Trie.matchLongestAux, Trie.best, hc, ih]
      by_cases hb : Trie.best next cs = 0
      · by_cases he : next.endF = true <;> simp [hb, he]
      · simp only [hb, if_neg hb, if_false]
        split <;> omega

theorem Trie.best_spec : ∀ (cs : List Char) (t : Trie),
    Trie.best t cs ≠ 0 →
    Trie.best t cs ≤ cs.length ∧ t.has (cs.take (Trie.best t cs)) = true := by
  intro cs
  induction cs with
  | nil => intro t h; simp [Trie.best] at h
  | cons c cs ih =>
    intro t h
    rw [Trie.best] at h ⊢
    cases hc : t.children c with
    | none => simp only [hc] at h; simp at h
    | some next =>
      simp only [hc] at h ⊢
      by_cases hb : Trie.best next cs = 0
      · rw [if_pos hb] at h ⊢
        by_cases he : next.endF = true
        · rw [if_pos he] at h ⊢
          refine ⟨by simp, ?_⟩
          simp [List.take_succ_cons, Trie.has, hc, he]
        · rw [if_neg he] at h; exact absurd rfl h
      · rw [if_neg hb] at h ⊢
        obtain ⟨h1, h2⟩ := ih next hb
        refine ⟨by simpa using Nat.succ_le_succ h1, ?_⟩
        simp [List.take_succ_cons, Trie.has, hc, h2]

theorem Trie.le_best : ∀ (cs : List Char) (t : Trie) (n : Nat),
    0 < n → n ≤ cs.length → t.has (cs.take n) = true → n ≤ Trie.best t cs := by
  intro cs
  induction cs with
  | nil => intro t n h0 hn _; simp at hn; omega
  | cons c cs ih =>
    intro t n h0 hn hh
    obtain ⟨m, rfl⟩ : ∃ m, n = m + 1 := ⟨n - 1, by omega⟩
    rw [List.take_succ_cons] at hh
    rw [Trie.has] at hh
    cases hc : t.children c with
    | none => simp only [hc] at hh; exact absurd hh (by simp)
    | some next =>
      simp only [hc] at hh
      rw [Trie.best]
      simp only [hc]
      by_cases hm : m = 0
      · subst hm
        rw [List.take_zero] at hh
        rw [show Trie.has next [] = next.endF from rfl] at hh
        simp only [hh, if_true]
        split <;> omega
      · have h0' : 0 < m := by omega
        have hm' : m ≤ cs.length := by simpa using hn
        have hle := ih next m h0' hm' hh
        have hb : Trie.best next cs ≠ 0 := by omega
        rw [if_neg hb]
        omega

theorem Trie.matchLongest_eq_best (t : Trie) (text : List Char) (start : Nat) :
    Trie.matchLongest t text start = Trie.best t (text.drop start) := by
  rw [Trie.matchLongest, Trie.matchLongestAux_best]
  by_cases h : Trie.best t (text.drop start) = 0
  · rw [if_pos h, h]
  · rw [if_neg h, Nat.zero_add]
theorem Trie.insertAux_idem : ∀ (w : List Char) (t : Trie),
    Trie.insertAux (Trie.insertAux t w) w = Trie.insertAux t w := by
  intro w
  induction w with
  | nil => intro t; cases t; rfl
  | cons c cs ih =>
    intro t
    cases t with
    | mk e ch =>
      rw [Trie.insertAux_cons e ch c cs]
      rw [Trie.insertAux_cons]
      congr 1
      funext d
      by_cases hd : d = c
      · subst hd; simp [ih]
      · simp [hd]

theorem Trie.insertAux_comm : ∀ (w1 : List Char) (t : Trie) (w2 : List Char),
    Trie.insertAux (Trie.insertAux t w1) w2 =
      Trie.insertAux (Trie.insertAux t w2) w1 := by
  intro w1
  induction w1 with
  | nil =>
    intro t w2
    cases t with
    | mk e ch =>
      cases w2 with
      | nil => rfl
      | cons c cs =>
        rw [show Trie.insertAux (Trie.mk e ch) [] = Trie.mk true ch from rfl,
          Trie.insertAux_cons, Trie.insertAux_cons]
        rfl
  | cons c1 cs1 ih =>
    intro t w2
    cases t with
    | mk e ch =>
      cases w2 with
      | nil =>
        rw [Trie.insertAux_cons,
          show Trie.insertAux (Trie.mk e ch) [] = Trie.mk true ch from rfl,
          Trie.insertAux_cons]
        rfl
      | cons c2 cs2 =>
        rw [Trie.insertAux_cons e ch c1 cs1, Trie.insertAux_cons e ch c2 cs2,
          Trie.insertAux_cons, Trie.insertAux_cons]
        congr 1
        funext d
        by_cases h1 : d = c1 <;> by_cases h2 : d = c2
        · subst h1
          subst h2
          simp [ih]
        · subst h1
          simp [h2, Ne.symm (fun hq => h2 hq.symm)]
        · subst h2
          simp [h1, Ne.symm (fun hq => h1 hq.symm)]
        · simp [h1, h2]

theorem Trie.insert_idem (t : Trie) (w : List Char) :
    Trie.insert (Trie.insert t w) w = Trie.insert t w := by
  unfold Trie.insert
  by_cases hw : w.isEmpty <;> simp [hw, Trie.insertAux_idem]

theorem Trie.insert_comm (t : Trie) (w1 w2 : List Char) :
    Trie.insert (Trie.insert t w1) w2 = Trie.insert (Trie.insert t w2) w1 := by
  unfold Trie.insert
  by_cases h1 : w1.isEmpty <;> by_cases h2 : w2.isEmpty <;>
    simp [h1, h2, Trie.insertAux_comm]
/-- C8: separator trie correctness: matchLongest on the trie built from the
words ws returns the length of the longest nonempty w in ws that is a
prefix of the text from start (and returns 0 only when no such w exists);
has holds exactly for the nonempty inserted words; insert is idempotent and
order-independent; inserting the empty word is a no-op (so the empty word
never matches). -/
theorem C8_separator_trie_correct (ws : List (List Char)) (text : List Char)
    (start : Nat) :
    (∀ w, w ∈ ws → w ≠ [] → w <+: text.drop start →
      w.length ≤ Trie.matchLongest (Trie.fromWords ws) text start) ∧
    (Trie.matchLongest (Trie.fromWords ws) text start ≠ 0 →
      ∃ w, w ∈ ws ∧ w ≠ [] ∧ w <+: text.drop start ∧
        w.length = Trie.matchLongest (Trie.fromWords ws) text start) ∧
    (∀ v, (Trie.fromWords ws).has v = true ↔ v ∈ ws ∧ v ≠ []) ∧
    (∀ (t : Trie) (w : List Char),
      Trie.insert (Trie.insert t w) w = Trie.insert t w) ∧
    (∀ (t : Trie) (w1 w2 : List Char),
      Trie.insert (Trie.insert t w1) w2 = Trie.insert (Trie.insert t w2) w1) ∧
    (∀ (t : Trie), Trie.insert t [] = t) := by
  refine ⟨?_, ?_, ?_, ?_, ?_, ?_⟩
  · intro w hw hne hp
    rw [Trie.matchLongest_eq_best]
    have hhas : (Trie.fromWords ws).has w = true :=
      (Trie.has_fromWords ws w).mpr ⟨hw, hne⟩
    have hlen : w.length ≤ (text.drop start).length := hp.length_le
    have h0 : 0 < w.length := List.length_pos.mpr hne
    have htake : w = (text.drop start).take w.length :=
      List.prefix_iff_eq_take.mp hp
    exact Trie.le_best (text.drop start) (Trie.fromWords ws) w.length h0 hlen
      (htake ▸ hhas)
  · intro hne
    rw [Trie.matchLongest_eq_best] at hne ⊢
    obtain ⟨hle, hhas⟩ := Trie.best_spec (text.drop start) (Trie.fromWords ws) hne
    obtain ⟨hmem, hne'⟩ := (Trie.has_fromWords ws _).mp hhas
    refine ⟨(text.drop start).take (Trie.best (Trie.fromWords ws)
      (text.drop start)), hmem, hne', List.take_prefix _ _, ?_⟩
    simp only [List.length_take]
    omega
  · intro v
    exact Trie.has_fromWords ws v
  · intro t w
    exact Trie.insert_idem t w
  · intro t w1 w2
    exact Trie.insert_comm t w1 w2
  · intro t
    rfl

theorem C8_separator_trie_correct_witness :
    2 ≤ Trie.matchLongest (Trie.fromWords [['a'], ['a', 'b']]) ['a', 'b', 'c'] 0 ∧
    ((Trie.fromWords [['a'], ['a', 'b']]).has ['a', 'b'] = true) :=
  have h := C8_separator_trie_correct [['a'], ['a', 'b']] ['a', 'b', 'c'] 0
  ⟨h.1 ['a', 'b'] (by decide) (by decide) (by decide),
    (h.2.2.1 ['a', 'b']).mpr (by decide)⟩
